import Mathlib

/-!
Verification of the research-powered task-breakdown serverless function
(`src/api/research-breakdown.js`).

The JavaScript source is shallowly embedded:
* JS strings are `String` (lists of characters; JS UTF-16 code units are
  modelled as Lean characters, exact for the concrete inputs used here);
* JSON values (and every dynamically-typed JS value flowing through the
  pipeline) are the inductive type `Json`; the JS `undefined` value is
  `Option.none` at use sites (`getField` returns `none` for an absent field);
* JS numbers are modelled as `Rat`; `NaN` is `Option.none` in coercions
  (`jsToNumber`); non-finite values do not arise in the claims checked here;
* a thrown JS exception is `Option.none` (or an explicit error branch) at the
  point of the `try`/`catch` that observes it;
* network effects (`fetch`) are oracles stored in an `Env` value: one outcome
  per outgoing request, so a run of the handler is a pure function of the
  request and the environment;
* `===` on extracted JSON values is modelled as structural equality (exact
  for the primitive titles/links exercised by the claims).
-/

/-- JSON values, as produced by `JSON.parse` and consumed by the pipeline. -/
inductive Json where
  | null
  | bool (b : Bool)
  | num (q : Rat)
  | str (s : String)
  | arr (xs : List Json)
  | obj (fields : List (String × Json))

namespace Json

mutual

/-- Structural (boolean) equality on `Json`. -/
def jeq : Json → Json → Bool
  | .null, .null => true
  | .bool a, .bool b => a == b
  | .num a, .num b => a == b
  | .str a, .str b => a == b
  | .arr a, .arr b => jeqList a b
  | .obj a, .obj b => jeqFields a b
  | _, _ => false

def jeqList : List Json → List Json → Bool
  | [], [] => true
  | a :: as, b :: bs => jeq a b && jeqList as bs
  | _, _ => false

def jeqFields : List (String × Json) → List (String × Json) → Bool
  | [], [] => true
  | (k, v) :: as, (l, w) :: bs => k == l && jeq v w && jeqFields as bs
  | _, _ => false

end

mutual

theorem jeq_iff : ∀ (a b : Json), jeq a b = true ↔ a = b
  | .null, b => by cases b <;> simp [jeq]
  | .bool a, b => by cases b <;> simp [jeq]
  | .num a, b => by cases b <;> simp [jeq]
  | .str a, b => by cases b <;> simp [jeq]
  | .arr xs, b => by
      cases b <;> simp [jeq]
      exact jeqList_iff xs _
  | .obj fs, b => by
      cases b <;> simp [jeq]
      exact jeqFields_iff fs _

theorem jeqList_iff : ∀ (a b : List Json), jeqList a b = true ↔ a = b
  | [], b => by cases b <;> simp [jeqList]
  | a :: as, [] => by simp [jeqList]
  | a :: as, b :: bs => by
      simp [jeqList, jeq_iff a b, jeqList_iff as bs]

theorem jeqFields_iff : ∀ (a b : List (String × Json)), jeqFields a b = true ↔ a = b
  | [], b => by cases b <;> simp [jeqFields]
  | a :: as, [] => by simp [jeqFields]
  | (k, v) :: as, (l, w) :: bs => by
      simp [jeqFields, jeq_iff v w, jeqFields_iff as bs, and_assoc]

end

instance : DecidableEq Json := fun a b => decidable_of_iff _ (jeq_iff a b)

end Json

/-! ### Basic JavaScript value semantics -/

/-- JS truthiness of a JSON value (`!x` negates this).  The empty string,
`0`, `false` and `null` are falsy; every object and array is truthy. -/
def jsTruthy : Json → Bool
  | .null => false
  | .bool b => b
  | .num q => q ≠ 0
  | .str s => s ≠ ""
  | .arr _ => true
  | .obj _ => true

/-- Truthiness of a possibly-`undefined` value (`none` = `undefined`). -/
def jsTruthyU : Option Json → Bool
  | none => false
  | some j => jsTruthy j

/-- Property read `o[k]` on a value already known not to be `null`
(`null` receivers throw and are handled before this is called).
Objects look fields up with last-occurrence-wins, matching the way
`JSON.parse` lets a duplicate key override an earlier one; every non-object
receiver yields `undefined` (`none`). -/
def getField : Json → String → Option Json
  | .obj fs, k => go fs k none
  | _, _ => none
where
  go : List (String × Json) → String → Option Json → Option Json
  | [], _, acc => acc
  | (l, v) :: rest, k, acc => go rest k (if l = k then some v else acc)

/-! ### JS whitespace, trimming, string and number coercions -/

/-- The character class matched by the regex `\s` (and trimmed by
`String.prototype.trim`): ASCII whitespace, NBSP, the Unicode space
separators, the line separators and the BOM. -/
def jsWsChars : List Char :=
  [' ', '\t', '\n', '\u000B', '\u000C', '\r', ' ', ' ',
   ' ', ' ', ' ', ' ', ' ', ' ', ' ',
   ' ', ' ', ' ', ' ', ' ', ' ', ' ',
   ' ', '　', '﻿']

def isWs (c : Char) : Bool := jsWsChars.contains c

/-- Remove trailing JS whitespace. -/
def trimEndL (cs : List Char) : List Char := (cs.reverse.dropWhile isWs).reverse

/-- Remove leading and trailing JS whitespace (`String.prototype.trim`). -/
def trimL (cs : List Char) : List Char := trimEndL (cs.dropWhile isWs)

def jsTrim (s : String) : String := ⟨trimL s.data⟩

/-- Decimal digits of the fractional part of `rem / den`, at most `fuel`
digits (the claims only exercise integral values; JS shortest round-trip
printing of a fractional double is not needed and not modelled exactly). -/
def fracDigits : Nat → Nat → Nat → List Char
  | 0, _, _ => []
  | _, 0, _ => []
  | fuel + 1, rem, den => Nat.digitChar (rem * 10 / den) :: fracDigits fuel (rem * 10 % den) den

/-- Rendering of a JS number: exact for integral values. -/
def ratToString (q : Rat) : String :=
  if q.den = 1 then toString q.num
  else
    (if q < 0 then "-" else "") ++ toString (q.num.natAbs / q.den) ++ "." ++
      ⟨fracDigits 20 (q.num.natAbs % q.den) q.den⟩

mutual

/-- The JS `String(...)` coercion on JSON values. -/
def jsToString : Json → String
  | .null => "null"
  | .bool b => if b then "true" else "false"
  | .num q => ratToString q
  | .str s => s
  | .arr xs => arrJoin xs
  | .obj _ => "[object Object]"

/-- `Array.prototype.toString`: elements joined by commas, with `null`
rendered as the empty string. -/
def arrJoin : List Json → String
  | [] => ""
  | [x] => (match x with | Json.null => "" | y => jsToString y)
  | x :: xs => (match x with | Json.null => "" | y => jsToString y) ++ "," ++ arrJoin xs

end

/-- String coercion of a possibly-`undefined` value (template literals). -/
def jsToStringU : Option Json → String
  | none => "undefined"
  | some j => jsToString j

def digitsToNat (ds : List Char) : Nat :=
  ds.foldl (fun n c => n * 10 + (c.toNat - 48)) 0

/-- Scale a mantissa by a signed power of ten. -/
def applyExp (m : Rat) (neg : Bool) (e : Nat) : Rat :=
  if neg then m / (10 : Rat) ^ e else m * (10 : Rat) ^ e

def expDigits (m : Rat) (neg : Bool) (r : List Char) : Option Rat :=
  if r ≠ [] ∧ r.all Char.isDigit then some (applyExp m neg (digitsToNat r)) else none

/-- Optional exponent suffix of a decimal literal (after the `e`/`E`). -/
def expPart (m : Rat) : List Char → Option Rat
  | '+' :: r => expDigits m false r
  | '-' :: r => expDigits m true r
  | r => expDigits m false r

/-- Unsigned decimal numeric literal (digits, optional fraction, optional
exponent), consuming the whole input.  Non-finite literals (`Infinity`) are
outside the `Rat` carrier and fold into the `NaN` case `none`; no claim
exercises them. -/
def decLiteral (cs : List Char) : Option Rat :=
  let ds := cs.takeWhile Char.isDigit
  match cs.dropWhile Char.isDigit with
  | [] => if ds = [] then none else some (digitsToNat ds)
  | '.' :: r2 =>
    let fs := r2.takeWhile Char.isDigit
    let mant : Rat := (digitsToNat (ds ++ fs) : Rat) / (10 : Rat) ^ fs.length
    if ds = [] ∧ fs = [] then none
    else
      match r2.dropWhile Char.isDigit with
      | [] => some mant
      | e :: r4 => if e = 'e' ∨ e = 'E' then expPart mant r4 else none
  | e :: r2 =>
    if (e = 'e' ∨ e = 'E') ∧ ds ≠ [] then expPart ((digitsToNat ds : Nat) : Rat) r2 else none

def baseDigit (base : Nat) (c : Char) : Option Nat :=
  let v :=
    if c.isDigit then c.toNat - 48
    else if 'a' ≤ c ∧ c ≤ 'f' then c.toNat - 87
    else if 'A' ≤ c ∧ c ≤ 'F' then c.toNat - 55
    else 99
  if v < base then some v else none

/-- Base-prefixed integer literal body (`0x…`, `0o…`, `0b…`). -/
def baseLiteral (base : Nat) (cs : List Char) : Option Rat :=
  if cs = [] then none
  else
    (cs.foldl (fun acc c =>
      match acc, baseDigit base c with
      | some n, some d => some (n * base + d)
      | _, _ => none) (some 0)).map (fun n => (n : Rat))

/-- Unsigned numeric literal, including the base prefixes accepted by the JS
`Number(...)` coercion. -/
def nonNegLiteral : List Char → Option Rat
  | '0' :: 'x' :: r => baseLiteral 16 r
  | '0' :: 'X' :: r => baseLiteral 16 r
  | '0' :: 'o' :: r => baseLiteral 8 r
  | '0' :: 'O' :: r => baseLiteral 8 r
  | '0' :: 'b' :: r => baseLiteral 2 r
  | '0' :: 'B' :: r => baseLiteral 2 r
  | cs => decLiteral cs

/-- Signed numeric literal: a sign is only legal before a decimal literal. -/
def numericLiteral : List Char → Option Rat
  | '+' :: rest => decLiteral rest
  | '-' :: rest => (decLiteral rest).map Neg.neg
  | cs => nonNegLiteral cs

/-- The JS `Number(string)` coercion: trim, empty means `0`, otherwise the
string must be exactly a numeric literal (`none` = `NaN`). -/
def strToNumber (s : String) : Option Rat :=
  let t := trimL s.data
  if t = [] then some 0 else numericLiteral t

/-- The JS `Number(...)` coercion on JSON values (`none` = `NaN`).
Arrays coerce through their string rendering; plain objects coerce through
`"[object Object]"`, which is `NaN`. -/
def jsToNumber : Json → Option Rat
  | .null => some 0
  | .bool b => some (if b then 1 else 0)
  | .num q => some q
  | .str s => strToNumber s
  | .arr xs => strToNumber (arrJoin xs)
  | .obj _ => strToNumber "[object Object]"

/-- Numeric coercion of a possibly-`undefined` value: `Number(undefined)`
is `NaN`. -/
def jsToNumberU : Option Json → Option Rat
  | none => none
  | some j => jsToNumber j

/-! ### The text sanitizer `stripHtml`

`stripHtml` chains four global regex replacements and a trim:
script blocks, style blocks and tags are replaced by a single space, then
whitespace runs are collapsed.  Each replacement is modelled as a
left-to-right scan with the exact match semantics of the JS regexes. -/

/-- ASCII lower-casing, the case folding performed by the `i` regex flag on
the patterns appearing in the source (which are ASCII). -/
def lowerC (c : Char) : Char :=
  match c with
  | 'A' => 'a' | 'B' => 'b' | 'C' => 'c' | 'D' => 'd' | 'E' => 'e' | 'F' => 'f'
  | 'G' => 'g' | 'H' => 'h' | 'I' => 'i' | 'J' => 'j' | 'K' => 'k' | 'L' => 'l'
  | 'M' => 'm' | 'N' => 'n' | 'O' => 'o' | 'P' => 'p' | 'Q' => 'q' | 'R' => 'r'
  | 'S' => 's' | 'T' => 't' | 'U' => 'u' | 'V' => 'v' | 'W' => 'w' | 'X' => 'x'
  | 'Y' => 'y' | 'Z' => 'z'
  | c => c

/-- Case-insensitive character comparison. -/
def eqI (a b : Char) : Bool := lowerC a == lowerC b

/-- Does `pat` match (case-insensitively) at the start of `cs`? -/
def matchI : List Char → List Char → Bool
  | [], _ => true
  | _ :: _, [] => false
  | p :: ps, c :: cs => eqI p c && matchI ps cs

theorem matchI_length : ∀ (pat cs : List Char), matchI pat cs = true → pat.length ≤ cs.length
  | [], _, _ => Nat.zero_le _
  | _ :: _, [], h => by simp [matchI] at h
  | p :: ps, c :: cs, h => by
      simp only [matchI, Bool.and_eq_true] at h
      exact Nat.succ_le_succ (matchI_length ps cs h.2)

/-- Drop everything up to and including the first (case-insensitive)
occurrence of `pat`; `none` if there is no occurrence. -/
def dropAfterI (pat : List Char) : List Char → Option (List Char)
  | [] => if matchI pat [] then some [] else none
  | c :: rest =>
    if matchI pat (c :: rest) then some ((c :: rest).drop pat.length)
    else dropAfterI pat rest

theorem dropAfterI_le : ∀ (pat cs r : List Char), dropAfterI pat cs = some r → r.length ≤ cs.length
  | pat, [], r, h => by
      simp only [dropAfterI] at h
      split at h <;> simp_all
  | pat, c :: rest, r, h => by
      simp only [dropAfterI] at h
      split at h
      · cases h
        simp
      · exact Nat.le_trans (dropAfterI_le pat rest r h) (Nat.le_succ _)

/-- Global replacement of the non-greedy block regex
`/openT[\s\S]*?closeT/gi` by a single space: at each position, the leftmost
match runs from an occurrence of `openT` to the nearest following `closeT`. -/
def blockStrip (openT closeT : List Char) (hop : openT ≠ []) : List Char → List Char
  | [] => []
  | c :: rest =>
    if matchI openT (c :: rest) then
      match h : dropAfterI closeT ((c :: rest).drop openT.length) with
      | some after => ' ' :: blockStrip openT closeT hop after
      | none => c :: blockStrip openT closeT hop rest
    else c :: blockStrip openT closeT hop rest
termination_by cs => cs.length
decreasing_by
  all_goals simp_all
  all_goals
    (have h1 := dropAfterI_le closeT _ _ h
     rw [List.length_drop] at h1
     have h2 : 1 ≤ openT.length := by
       cases openT with
       | nil => exact absurd rfl hop
       | cons _ _ => simp
     simp only [List.length_cons] at h1
     omega)

/-- Split at the first `>`: `splitGt cs = some (gap, after)` when
`cs = gap ++ ">" ++ after` with no `>` in `gap`. -/
def splitGt : List Char → Option (List Char × List Char)
  | [] => none
  | d :: ds =>
    if d = '>' then some ([], ds)
    else (splitGt ds).map (fun p => (d :: p.1, p.2))

theorem splitGt_after_lt : ∀ (cs g a : List Char), splitGt cs = some (g, a) → a.length < cs.length
  | [], _, _, h => by simp [splitGt] at h
  | d :: ds, g, a, h => by
      simp only [splitGt] at h
      split at h
      · cases h; simp
      · cases hs : splitGt ds with
        | none => simp [hs] at h
        | some p =>
            simp only [hs, Option.map_some] at h
            cases h
            exact Nat.lt_trans (splitGt_after_lt ds p.1 p.2 (by simp [hs])) (by simp)

/-- Global replacement of `/<[^>]+>/g` by a single space: a match runs from
a `<` through the first following `>`, provided at least one character lies
between; a `<` immediately followed by `>` (or with no later `>`) is left in
place and scanning resumes one character later. -/
def tagStrip : List Char → List Char
  | [] => []
  | c :: rest =>
    if c = '<' then
      match h : splitGt rest with
      | some (gap, after) =>
          if gap = [] then c :: tagStrip rest else ' ' :: tagStrip after
      | none => c :: tagStrip rest
    else c :: tagStrip rest
termination_by cs => cs.length
decreasing_by
  all_goals simp_all
  all_goals (have h1 := splitGt_after_lt _ _ _ h; omega)

/-- Global replacement of `/\s+/g` by a single space. -/
def collapseWs : List Char → List Char
  | [] => []
  | c :: rest =>
    if isWs c then ' ' :: collapseWs (rest.dropWhile isWs)
    else c :: collapseWs rest
termination_by cs => cs.length
decreasing_by
  · exact Nat.lt_succ_of_le ((List.dropWhile_suffix isWs).length_le)
  · simp

def scriptOpen : List Char := "<script".data
def scriptClose : List Char := "</script>".data
def styleOpen : List Char := "<style".data
def styleClose : List Char := "</style>".data

/-- The sanitizing pipeline of `stripHtml` on a non-empty string: script
blocks, then style blocks, then tags, then whitespace collapsing, then
trim. -/
def stripHtmlL (cs : List Char) : List Char :=
  trimL (collapseWs (tagStrip
    (blockStrip styleOpen styleClose (by decide)
      (blockStrip scriptOpen scriptClose (by decide) cs))))

/-- The `stripHtml` function of the source: `none` models a `null`/absent
argument, on which (as on the empty string) the falsiness guard returns the
empty string without touching the pipeline. -/
def stripHtml : Option String → String
  | none => ""
  | some s => if s = "" then "" else ⟨stripHtmlL s.data⟩

/-! ### `JSON.parse` and `safeParseJson` -/

/-- JSON insignificant whitespace. -/
def skipJWs (cs : List Char) : List Char :=
  cs.dropWhile (fun c => c == ' ' || c == '\t' || c == '\n' || c == '\r')

def hexVal (c : Char) : Option Nat :=
  if c.isDigit then some (c.toNat - 48)
  else if 97 ≤ c.toNat ∧ c.toNat ≤ 102 then some (c.toNat - 87)
  else if 65 ≤ c.toNat ∧ c.toNat ≤ 70 then some (c.toNat - 55)
  else none

/-- Body of a JSON string literal (after the opening quote), with escape
sequences.  Surrogate pairs combine into one scalar; a lone surrogate (legal
in JS strings, not representable as a Lean `Char`) becomes U+FFFD. -/
def parseStrBody : Nat → List Char → Option (List Char × List Char)
  | 0, _ => none
  | _, [] => none
  | fuel + 1, c :: rest =>
    if c = '"' then some ([], rest)
    else if c = '\\' then
      match rest with
      | [] => none
      | e :: rest2 =>
        let simpleEsc : Option Char :=
          if e = '"' then some '"'
          else if e = '\\' then some '\\'
          else if e = '/' then some '/'
          else if e = 'b' then some '\x08'
          else if e = 'f' then some '\x0C'
          else if e = 'n' then some '\n'
          else if e = 'r' then some '\r'
          else if e = 't' then some '\t'
          else none
        match simpleEsc with
        | some d => (parseStrBody fuel rest2).map (fun p => (d :: p.1, p.2))
        | none =>
          if e = 'u' then
            match rest2 with
            | h1 :: h2 :: h3 :: h4 :: rest3 =>
              match hexVal h1, hexVal h2, hexVal h3, hexVal h4 with
              | some v1, some v2, some v3, some v4 =>
                let n := ((v1 * 16 + v2) * 16 + v3) * 16 + v4
                if 0xD800 ≤ n ∧ n < 0xDC00 then
                  match rest3 with
                  | '\\' :: 'u' :: g1 :: g2 :: g3 :: g4 :: rest4 =>
                    match hexVal g1, hexVal g2, hexVal g3, hexVal g4 with
                    | some w1, some w2, some w3, some w4 =>
                      let m := ((w1 * 16 + w2) * 16 + w3) * 16 + w4
                      if 0xDC00 ≤ m ∧ m < 0xE000 then
                        (parseStrBody fuel rest4).map (fun p =>
                          (Char.ofNat (0x10000 + (n - 0xD800) * 0x400 + (m - 0xDC00)) :: p.1, p.2))
                      else (parseStrBody fuel rest3).map (fun p => ('�' :: p.1, p.2))
                    | _, _, _, _ => (parseStrBody fuel rest3).map (fun p => ('�' :: p.1, p.2))
                  | _ => (parseStrBody fuel rest3).map (fun p => ('�' :: p.1, p.2))
                else if 0xDC00 ≤ n ∧ n < 0xE000 then
                  (parseStrBody fuel rest3).map (fun p => ('�' :: p.1, p.2))
                else
                  (parseStrBody fuel rest3).map (fun p => (Char.ofNat n :: p.1, p.2))
              | _, _, _, _ => none
            | _ => none
          else none
    else if c.toNat < 0x20 then none
    else (parseStrBody fuel rest).map (fun p => (c :: p.1, p.2))

/-- Strict JSON number after the optional leading minus: `0` or a nonzero
digit run, optional fraction, optional exponent. -/
def parseJNum (cs : List Char) : Option (Rat × List Char) :=
  let intDs := cs.takeWhile Char.isDigit
  let r1 := cs.dropWhile Char.isDigit
  if intDs = [] then none
  else if intDs.head? = some '0' ∧ intDs.length > 1 then none
  else
    let afterFrac : Option (Rat × List Char) :=
      match r1 with
      | '.' :: r2 =>
        let fs := r2.takeWhile Char.isDigit
        if fs = [] then none
        else some ((digitsToNat (intDs ++ fs) : Rat) / (10 : Rat) ^ fs.length,
                   r2.dropWhile Char.isDigit)
      | _ => some ((digitsToNat intDs : Rat), r1)
    match afterFrac with
    | none => none
    | some (m, r3) =>
      match r3 with
      | e :: r4 =>
        if e = 'e' ∨ e = 'E' then
          match r4 with
          | '+' :: r5 =>
            let es := r5.takeWhile Char.isDigit
            if es = [] then none
            else some (applyExp m false (digitsToNat es), r5.dropWhile Char.isDigit)
          | '-' :: r5 =>
            let es := r5.takeWhile Char.isDigit
            if es = [] then none
            else some (applyExp m true (digitsToNat es), r5.dropWhile Char.isDigit)
          | r5 =>
            let es := r5.takeWhile Char.isDigit
            if es = [] then none
            else some (applyExp m false (digitsToNat es), r5.dropWhile Char.isDigit)
        else some (m, r3)
      | [] => some (m, r3)

mutual

/-- Recursive-descent JSON value parser (fuel-indexed; the top-level call
supplies more fuel than any input can consume). -/
def parseVal : Nat → List Char → Option (Json × List Char)
  | 0, _ => none
  | fuel + 1, cs =>
    match cs with
    | 'n' :: 'u' :: 'l' :: 'l' :: rest => some (.null, rest)
    | 't' :: 'r' :: 'u' :: 'e' :: rest => some (.bool true, rest)
    | 'f' :: 'a' :: 'l' :: 's' :: 'e' :: rest => some (.bool false, rest)
    | '"' :: rest => (parseStrBody (rest.length + 1) rest).map (fun p => (.str ⟨p.1⟩, p.2))
    | '-' :: rest => (parseJNum rest).map (fun p => (.num (-p.1), p.2))
    | '\x5b' :: rest =>
      (parseArrItems fuel (skipJWs rest)).map (fun p => (.arr p.1, p.2))
    | '\x7b' :: rest =>
      (parseObjItems fuel (skipJWs rest)).map (fun p => (.obj p.1, p.2))
    | c :: _ => if c.isDigit then (parseJNum cs).map (fun p => (.num p.1, p.2)) else none
    | [] => none

/-- Items of an array, positioned after `[` (whitespace skipped). -/
def parseArrItems : Nat → List Char → Option (List Json × List Char)
  | 0, _ => none
  | fuel + 1, cs =>
    match cs with
    | '\x5d' :: rest => some ([], rest)
    | _ =>
      match parseVal fuel cs with
      | none => none
      | some (v, r1) =>
        match skipJWs r1 with
        | ',' :: r2 =>
          (parseArrItems fuel (skipJWs r2)).map (fun p => (v :: p.1, p.2))
        | '\x5d' :: r2 => some ([v], r2)
        | _ => none

/-- Members of an object, positioned after the opening brace (whitespace
skipped).  Duplicate keys are kept in order; `getField` resolves them with
last-occurrence-wins, as `JSON.parse` does. -/
def parseObjItems : Nat → List Char → Option (List (String × Json) × List Char)
  | 0, _ => none
  | fuel + 1, cs =>
    match cs with
    | '\x7d' :: rest => some ([], rest)
    | '"' :: rest =>
      match parseStrBody (rest.length + 1) rest with
      | none => none
      | some (k, r1) =>
        match skipJWs r1 with
        | ':' :: r2 =>
          match parseVal fuel (skipJWs r2) with
          | none => none
          | some (v, r3) =>
            match skipJWs r3 with
            | ',' :: r4 =>
              match skipJWs r4 with
              | '"' :: _ => (parseObjItems fuel (skipJWs r4)).map (fun p => ((⟨k⟩, v) :: p.1, p.2))
              | _ => none
            | '\x7d' :: r4 => some ([(⟨k⟩, v)], r4)
            | _ => none
        | _ => none
    | _ => none

end

/-- The JS `JSON.parse`, as a total function returning `none` on a parse
error. -/
def jsonParse (s : String) : Option Json :=
  match parseVal (2 * s.data.length + 4) (skipJWs s.data) with
  | some (v, rest) => if skipJWs rest = [] then some v else none
  | none => none

/-- Case-sensitive literal prefix test. -/
def beginsWith : List Char → List Char → Bool
  | [], _ => true
  | _ :: _, [] => false
  | p :: ps, c :: cs => p == c && beginsWith ps cs

/-- The fenced-block opener `` ```json `` (matched case-insensitively). -/
def fencedOpen : List Char := "```json".data

/-- A plain fence `` ``` ``. -/
def fence : List Char := "```".data

/-- Suffix starting at the first case-insensitive occurrence of `pat`. -/
def findOpenI (pat : List Char) : List Char → Option (List Char)
  | [] => if matchI pat [] then some [] else none
  | c :: rest => if matchI pat (c :: rest) then some (c :: rest) else findOpenI pat rest

/-- Split at the first case-sensitive occurrence of `pat`:
`some (before, after)` with the occurrence removed. -/
def splitAtSeq (pat : List Char) : List Char → Option (List Char × List Char)
  | [] => if beginsWith pat [] then some ([], []) else none
  | c :: rest =>
    if beginsWith pat (c :: rest) then some ([], (c :: rest).drop pat.length)
    else (splitAtSeq pat rest).map (fun p => (c :: p.1, p.2))

/-- The text matched by `/```json[\s\S]*?```/i`: from the first occurrence
of the opener to the nearest following fence.  (If the first opener has no
following fence, no later opener can have one either, since an opener starts
with a fence.) -/
def fencedMatch (cs : List Char) : Option (List Char) :=
  match findOpenI fencedOpen cs with
  | none => none
  | some s =>
    match splitAtSeq fence (s.drop fencedOpen.length) with
    | none => none
    | some (body, _) => some (s.take (fencedOpen.length + body.length + fence.length))

/-- The text matched by the greedy `/\{[\s\S]*\}/`: from the first opening
brace to the last closing brace, when the latter follows the former. -/
def braceMatch (cs : List Char) : Option (List Char) :=
  let s := cs.dropWhile (fun c => c ≠ '\x7b')
  match s with
  | [] => none
  | _ =>
    let upToLast := (s.reverse.dropWhile (fun c => c ≠ '\x7d')).reverse
    if upToLast = [] then none else some upToLast

/-- Global replacement `/```json|```/g → ""` (fuel-indexed so that it
computes by structural recursion; the wrapper supplies ample fuel). -/
def stripFencesF : Nat → List Char → List Char
  | 0, cs => cs
  | _ + 1, [] => []
  | fuel + 1, c :: rest =>
    if beginsWith fencedOpen (c :: rest) then stripFencesF fuel (rest.drop 6)
    else if beginsWith fence (c :: rest) then stripFencesF fuel (rest.drop 2)
    else c :: stripFencesF fuel rest

/-- Global replacement `/```json|```/g → ""` applied to the matched block
(case-sensitive, exactly as in the source). -/
def stripFences (cs : List Char) : List Char := stripFencesF cs.length cs

/-- The source function `safeParseJson`: direct parse, then — if a fenced
block exists, that block, otherwise the largest brace-delimited substring —
stripped of fence markers and parsed; `none` when everything fails. -/
def safeParseJson (text : String) : Option Json :=
  match jsonParse text with
  | some v => some v
  | none =>
    match fencedMatch text.data with
    | some m => jsonParse ⟨stripFences m⟩
    | none =>
      match braceMatch text.data with
      | some m => jsonParse ⟨stripFences m⟩
      | none => none

/-! ### The response normalizer -/

/-- Read of `parsed?.microTasks` guarded by `Array.isArray`: anything other
than an array field of a non-null object collapses to the empty list. -/
def microTasksOf (parsed : Option Json) : List Json :=
  match parsed with
  | none => []
  | some .null => []
  | some p =>
    match getField p "microTasks" with
    | some (.arr xs) => xs
    | _ => []

/-- The field computation
`Math.max(10, Math.min(180, Number(t.estimatedTimeMinutes) || 30))`:
the `|| 30` replaces both `NaN` and `0` before clamping. -/
def clampTime (v : Option Json) : Rat :=
  let n : Rat :=
    match jsToNumberU v with
    | none => 30
    | some q => if q = 0 then 30 else q
  max 10 (min 180 n)

/-- The field computation `String(t.text || "Untitled task").trim()`. -/
def textVal (v : Option Json) : String :=
  jsTrim (jsToString (if jsTruthyU v then v.getD Json.null else Json.str "Untitled task"))

/-- The field computation
`["high", "medium", "low"].includes(t.priority) ? t.priority : "medium"`:
`includes` compares with `===`, so only those three string values pass. -/
def priorityVal (v : Option Json) : String :=
  match v with
  | some (.str s) => if s = "high" ∨ s = "medium" ∨ s = "low" then s else "medium"
  | _ => "medium"

/-- The field computation `Array.isArray(t.dependsOn) ? t.dependsOn : []`
(elements are passed through unvalidated). -/
def dependsVal (v : Option Json) : List Json :=
  match v with
  | some (.arr xs) => xs
  | _ => []

/-- Normalization of one raw entry at (0-based) position `idx`.  Reading
`t.text` on a `null` entry throws a `TypeError` (`none`); any other JSON
value supports the property reads. -/
def normalizeEntry (idx : Nat) (t : Json) : Option Json :=
  match t with
  | .null => none
  | _ => some (.obj [
      ("id", .num ((idx + 1 : Nat) : Rat)),
      ("text", .str (textVal (getField t "text"))),
      ("estimatedTime", .num (clampTime (getField t "estimatedTimeMinutes"))),
      ("priority", .str (priorityVal (getField t "priority"))),
      ("dependsOn", .arr (dependsVal (getField t "dependsOn")))])

/-- The `.map` over the already-truncated list: a throw at any entry aborts
the whole map (and the handler turns it into a 500 response). -/
def normalizeFrom (idx : Nat) : List Json → Option (List Json)
  | [] => some []
  | t :: ts =>
    match normalizeEntry idx t with
    | none => none
    | some e => (normalizeFrom (idx + 1) ts).map (fun l => e :: l)

/-- `microTasks.slice(0, 20).map((t, idx) => …)`. -/
def normalizeList (ts : List Json) : Option (List Json) :=
  normalizeFrom 0 (ts.take 20)

/-! ### The web research provider -/

/-- A search result as assembled by `webSearch`: `title`/`link` are raw
field reads (possibly `undefined`), `snippet` is defaulted to `""`. -/
structure SearchResult where
  title : Option Json
  link : Option Json
  snippet : Json
deriving DecidableEq

/-- Outcome of one `fetch` + `res.json()` round trip: a thrown
network/parse error, a non-success HTTP status, or a parsed JSON body. -/
inductive FetchOutcome where
  | err
  | notOk
  | ok (data : Json)
deriving DecidableEq

/-- Outcome of one page fetch (`fetch` + `resp.text()`). -/
inductive PageOutcome where
  | err
  | notOk
  | ok (html : String)
deriving DecidableEq

/-- Outcome of one completion-backend call, with the HTTP/JSON layer
abstracted to the text it yields or the error message it throws. -/
inductive LlmResult where
  | ok (raw : String)
  | fail (msg : String)
deriving DecidableEq

/-- The environment of one request: configuration (`process.env`) and one
oracle outcome per outbound network call.  `serpFetch i` is the outcome of
the `i`-th search query (the source issues five query variants of the task:
"step by step guide 2024", "best practices tutorial", "implementation
checklist", "project requirements breakdown", "development roadmap"). -/
structure Env where
  serpKey : Option String
  openAIKey : Option String
  anthropicKey : Option String
  serpFetch : Nat → FetchOutcome
  wikiFetch : FetchOutcome
  pageFetch : Nat → PageOutcome
  llm : String → LlmResult

/-- JS truthiness of an environment variable (`undefined` and `""` are
falsy). -/
def truthyKey : Option String → Bool
  | none => false
  | some s => s ≠ ""

/-- One raw organic result mapped to a `SearchResult`
(`{title: r.title, link: r.link, snippet: r.snippet || ""}`); reading a
property of a `null` array entry throws. -/
def toSearchResult (r : Json) : Option SearchResult :=
  match r with
  | .null => none
  | _ => some
      { title := getField r "title"
        link := getField r "link"
        snippet :=
          match getField r "snippet" with
          | some s => if jsTruthy s then s else Json.str ""
          | none => Json.str "" }

/-- `(data.organic_results || []).map(toSearchResult)`: a falsy field maps
to no results, a truthy non-array throws, and the map throws on a `null`
entry. -/
def mapResults (data : Json) : Option (List SearchResult) :=
  match data with
  | .null => none
  | _ =>
    let organic : Option Json := getField data "organic_results"
    match (if jsTruthyU organic then organic else some (Json.arr [])) with
    | some (.arr xs) => xs.mapM toSearchResult
    | _ => none

/-- The query loop of the SerpAPI branch: results of successful queries are
concatenated in issue order, a non-success status contributes nothing, and a
thrown error (`none`) aborts the whole loop — the surrounding `try` wraps
the entire loop, not one iteration. -/
def runQueries (f : Nat → FetchOutcome) : List Nat → Option (List SearchResult)
  | [] => some []
  | i :: is =>
    match f i with
    | .err => none
    | .notOk => runQueries f is
    | .ok data =>
      match mapResults data with
      | none => none
      | some rs => (runQueries f is).map (fun acc => rs ++ acc)

/-- Indices of the five query variants. -/
def serpQueryIds : List Nat := [0, 1, 2, 3, 4]

/-- The `filter`/`findIndex` deduplication: an element survives exactly
when no earlier element has an equal `link` (first occurrence wins). -/
def dedupByLink : List SearchResult → List SearchResult := go []
where
  go (seen : List (Option Json)) : List SearchResult → List SearchResult
  | [] => []
  | r :: rs => if r.link ∈ seen then go seen rs else r :: go (r.link :: seen) rs

/-- The SerpAPI branch of `webSearch`: `some rs` models the `return` inside
the `try`; `none` models every fall-through to the Wikipedia fallback
(key unconfigured, a thrown error anywhere in the loop, or no unique
results). -/
def serpTry (env : Env) : Option (List SearchResult) :=
  if truthyKey env.serpKey then
    match runQueries env.serpFetch serpQueryIds with
    | none => none
    | some all =>
      let uniq := dedupByLink all
      if uniq = [] then none else some (uniq.take 8)
  else none

/-- Dynamic application of `stripHtml` to an arbitrary JS value (the wiki
snippet): falsy values short-circuit to `""`; calling `.replace` on a
truthy non-string throws. -/
def stripHtmlJ (v : Option Json) : Option String :=
  match v with
  | none => some ""
  | some j =>
    if jsTruthy j then
      match j with
      | .str s => some (stripHtml (some s))
      | _ => none
    else some ""

def hexDigitU (n : Nat) : Char :=
  if n < 10 then Char.ofNat (48 + n) else Char.ofNat (55 + n)

/-- UTF-8 bytes of a scalar value. -/
def utf8Bytes (n : Nat) : List Nat :=
  if n < 0x80 then [n]
  else if n < 0x800 then [0xC0 + n / 64, 0x80 + n % 64]
  else if n < 0x10000 then [0xE0 + n / 4096, 0x80 + (n / 64) % 64, 0x80 + n % 64]
  else [0xF0 + n / 262144, 0x80 + (n / 4096) % 64, 0x80 + (n / 64) % 64, 0x80 + n % 64]

def isUnreserved (c : Char) : Bool :=
  c.isAlpha || c.isDigit || ['-', '_', '.', '!', '~', '*', '\x27', '(', ')'].contains c

def charsConcat (f : Char → List Char) (cs : List Char) : List Char :=
  cs.foldr (fun c acc => f c ++ acc) []

/-- The JS `encodeURIComponent`: unreserved characters pass through, all
others become percent-encoded UTF-8 bytes. -/
def encodeURIComponent (s : String) : String :=
  ⟨charsConcat (fun c =>
    if isUnreserved c then [c]
    else charsConcat (fun _ => []) [] ++
      (utf8Bytes c.toNat).foldr (fun b acc => '%' :: hexDigitU (b / 16) :: hexDigitU (b % 16) :: acc) [])
    s.data⟩

/-- The constructed article URL:
``https://en.wikipedia.org/wiki/${encodeURIComponent(title.replace(/ /g, '_'))}``. -/
def wikiLinkOf (title : String) : String :=
  "https://en.wikipedia.org/wiki/" ++
    encodeURIComponent ⟨title.data.map (fun c => if c = ' ' then '_' else c)⟩

/-- One wiki hit mapped to a `SearchResult`; reading a property of a `null`
hit, calling `.replace` on a non-string title, or sanitizing a truthy
non-string snippet throws. -/
def wikiHitToResult (p : Json) : Option SearchResult :=
  match p with
  | .null => none
  | _ =>
    match getField p "title" with
    | some (.str ts) =>
      match stripHtmlJ (getField p "snippet") with
      | none => none
      | some sn =>
          some { title := some (.str ts), link := some (.str (wikiLinkOf ts)),
                 snippet := .str sn }
    | _ => none

/-- `(data.query?.search || []).map(wikiHitToResult)` with optional
chaining: a `null` body throws, a missing/`null` `query` yields no hits, a
truthy non-array `search` throws. -/
def wikiMap (data : Json) : Option (List SearchResult) :=
  match data with
  | .null => none
  | _ =>
    let sv : Option Json :=
      match getField data "query" with
      | none => none
      | some .null => none
      | some qv => getField qv "search"
    match (if jsTruthyU sv then sv else some (Json.arr [])) with
    | some (.arr xs) => xs.mapM wikiHitToResult
    | _ => none

/-- The Wikipedia fallback branch: every failure (thrown fetch, non-success
status, thrown mapping) yields the empty list; otherwise at most 3 hits. -/
def wikiTry (env : Env) : List SearchResult :=
  match env.wikiFetch with
  | .err => []
  | .notOk => []
  | .ok data =>
    match wikiMap data with
    | none => []
    | some pages => pages.take 3

/-- The source function `webSearch`: the SerpAPI branch when it returns,
else the Wikipedia fallback. -/
def webSearch (env : Env) (task : String) : List SearchResult :=
  match serpTry env with
  | some rs => rs
  | none => wikiTry env

/-! ### Page fetcher, prompt composer, completion provider -/

/-- A fetched page: raw title/url of the search result plus the sanitized,
truncated body text. -/
structure Page where
  title : Option Json
  url : Option Json
  text : String
deriving DecidableEq

/-- The `fetchPages` loop (`i` is the position, indexing the per-result
fetch oracle): non-success and thrown fetches are skipped entirely, a
success contributes `{title, url, text: stripHtml(html).slice(0, 10000)}`,
and entries are processed independently in order. -/
def fetchPages (f : Nat → PageOutcome) : Nat → List SearchResult → List Page
  | _, [] => []
  | i, r :: rs =>
    match f i with
    | .ok html =>
        { title := r.title, url := r.link,
          text := ⟨(stripHtml (some html)).data.take 10000⟩ } :: fetchPages f (i + 1) rs
    | _ => fetchPages f (i + 1) rs

/-- One rendered source block:
``Source ${i+1}: ${p.title} (${p.url})\n${p.text.slice(0, 2500)}``. -/
def sourceBlock (i : Nat) (p : Page) : String :=
  "Source " ++ toString (i + 1) ++ ": " ++ jsToStringU p.title ++ " (" ++
    jsToStringU p.url ++ ")\n" ++ ⟨p.text.data.take 2500⟩

def sourceBlocks : Nat → List Page → List String
  | _, [] => []
  | i, p :: ps => sourceBlock i p :: sourceBlocks (i + 1) ps

/-- `Array.prototype.join("\n\n")`. -/
def joinBlocks : List String → String
  | [] => ""
  | [b] => b
  | b :: bs => b ++ "\n\n" ++ joinBlocks bs

/-- The `context` variable of `buildPrompt`: the first three pages rendered
and joined, or `""` when no pages are available. -/
def contextOf (pages : List Page) : String :=
  if pages.length > 0 then joinBlocks (sourceBlocks 0 (pages.take 3)) else ""

/-- The composed prompt of `buildPrompt` (the template literal of the
source, with `${context || "(no web context provided)"}` inlined). -/
def buildPrompt (task : String) (pages : List Page) : String :=
  let context := contextOf pages
  "You are an expert project planner and researcher. Create a precise, actionable micro-task plan that reflects real-world best practices and current industry standards.\n\nPrimary task: \"" ++ task ++
  "\"\n\nUse the following web context (if any) to inform the plan:\n" ++
  (if context = "" then "(no web context provided)" else context) ++
  "\n\nReturn ONLY valid JSON matching this TypeScript type:\n\x7b\n  \"microTasks\": Array<\x7b\n    \"text\": string,\n    \"estimatedTimeMinutes\": number,\n    \"priority\": \"high\" | \"medium\" | \"low\",\n    \"dependsOn\"?: number[]\n  \x7d>\n\x7d\n\nCRITICAL REQUIREMENTS:\n• Generate SPECIFIC, ACTIONABLE steps, not generic concepts\n• Each task should be something you can actually DO right now\n• Include concrete deliverables and measurable outcomes\n• Use current best practices and modern tools/technologies\n• Research the specific domain if needed to provide accurate steps\n\nFor technical projects, include:\n• Specific tool setup and configuration steps\n• Exact commands or code snippets where relevant\n• Modern frameworks, libraries, and best practices\n• Testing, deployment, and monitoring specifics\n• Security and performance considerations\n\nFor business/creative projects, include:\n• Research and validation steps\n• Specific planning and documentation tasks\n• Execution and iteration phases\n• Quality assurance and feedback loops\n• Launch and measurement strategies\n\nGuidelines:\n• 8-15 micro-tasks that are specific and outcome-driven\n• Estimate realistic durations (15–120 minutes each)\n• Include dependencies by index (0-based) if a task requires another first\n• Assume a competent person with basic tools\n• Focus on what makes THIS specific project unique\n• No commentary, no markdown — just JSON."

/-- `callAnthropic`: throws a configuration error when the key is missing,
otherwise performs the single request/response modelled by the oracle. -/
def callAnthropic (env : Env) (prompt : String) : LlmResult :=
  if truthyKey env.anthropicKey then env.llm prompt
  else .fail "Missing ANTHROPIC_API_KEY env var"

/-- `callOpenAI`, analogous. -/
def callOpenAI (env : Env) (prompt : String) : LlmResult :=
  if truthyKey env.openAIKey then env.llm prompt
  else .fail "Missing OPENAI_API_KEY env var"

/-- Backend selection: OpenAI when its key is configured, else Anthropic. -/
def completionOf (env : Env) (prompt : String) : LlmResult :=
  if truthyKey env.openAIKey then callOpenAI env prompt else callAnthropic env prompt

/-! ### The request handler -/

structure Request where
  method : String
  body : Option Json
deriving DecidableEq

structure Response where
  status : Nat
  body : Json
deriving DecidableEq

def errObj (msg : String) : Json := .obj [("error", .str msg)]

/-- `err.message || "Internal error"`. -/
def errorMessageOr (msg : String) : String := if msg = "" then "Internal error" else msg

/-- The engine message of the `TypeError` thrown when the normalizing map
reads `.text` of a `null` entry (the exact engine wording is incidental;
only the 500 status is load-bearing). -/
def nullEntryTypeError : String := "Cannot read properties of null (reading \x27text\x27)"

/-- One entry of the `sources` list: `{title: r.title, url: r.link}`.
A property whose value is `undefined` is dropped by `JSON.stringify` when
the response is serialized, so it is absent from the body. -/
def mkSource (r : SearchResult) : Json :=
  .obj ((match r.title with | some t => [("title", t)] | none => []) ++
        (match r.link with | some l => [("url", l)] | none => []))

/-- The 200 response body. -/
def successBody (norm : List Json) (results : List SearchResult) (pages : List Page) : Json :=
  .obj [("breakdown", .arr norm),
        ("sources", .arr (results.map mkSource)),
        ("meta", .obj [("usedWebResearch", .bool (pages.length > 0))])]

/-- `const { task } = req.body || {}`. -/
def taskOf (body : Option Json) : Option Json :=
  let b := match body with
    | some j => if jsTruthy j then j else Json.obj []
    | none => Json.obj []
  getField b "task"

/-- The exported request handler. -/
def handler (env : Env) (req : Request) : Response :=
  if req.method ≠ "POST" then ⟨405, errObj "Method not allowed"⟩
  else
    match taskOf req.body with
    | some (.str s) =>
      if s = "" then ⟨400, errObj "Missing \x27task\x27 in request body"⟩
      else
        let results := webSearch env s
        let pages := if results.length ≠ 0 then fetchPages env.pageFetch 0 results else []
        let prompt := buildPrompt s pages
        match completionOf env prompt with
        | .fail msg => ⟨500, errObj (errorMessageOr msg)⟩
        | .ok raw =>
          match normalizeList (microTasksOf (safeParseJson raw)) with
          | none => ⟨500, errObj (errorMessageOr nullEntryTypeError)⟩
          | some norm => ⟨200, successBody norm results pages⟩
    | _ => ⟨400, errObj "Missing \x27task\x27 in request body"⟩

/-! ### Validation (claim C1) -/

/-- The validation check `!task || typeof task !== "string"`: `some s`
exactly when the body carries a non-empty string `task`. -/
def validTask (body : Option Json) : Option String :=
  match taskOf body with
  | some (.str s) => if s = "" then none else some s
  | _ => none

/-- A benign closed environment, used to instantiate witnesses. -/
def env0 : Env :=
  { serpKey := none, openAIKey := none, anthropicKey := none,
    serpFetch := fun _ => .notOk, wikiFetch := .notOk,
    pageFetch := fun _ => .notOk, llm := fun _ => .fail "boom" }

/-- C1: a non-POST method yields 405 `{error: "Method not allowed"}`, and a
POST whose body lacks a non-empty-string `task` yields 400
`{error: "Missing 'task' in request body"}`; in both cases the response is
independent of the environment (no research, page fetch, or completion work
can influence it). -/
theorem handler_validation (env env' : Env) (req : Request) :
    (req.method ≠ "POST" →
      handler env req = ⟨405, errObj "Method not allowed"⟩ ∧
      handler env req = handler env' req) ∧
    (req.method = "POST" → validTask req.body = none →
      handler env req = ⟨400, errObj "Missing \x27task\x27 in request body"⟩ ∧
      handler env req = handler env' req) := by
  constructor
  · intro hm
    constructor <;> simp [handler, hm]
  · intro hm hv
    rw [show req = ⟨req.method, req.body⟩ from rfl, hm]
    cases ht : taskOf req.body with
    | none =>
        constructor <;> simp [handler, ht]
    | some j =>
        cases j with
        | str s =>
            simp only [validTask, ht] at hv
            split at hv
            · rename_i hs
              constructor <;> simp [handler, ht, hs]
            · cases hv
        | null => constructor <;> simp [handler, ht]
        | bool b => constructor <;> simp [handler, ht]
        | num q => constructor <;> simp [handler, ht]
        | arr xs => constructor <;> simp [handler, ht]
        | obj fs => constructor <;> simp [handler, ht]

/-- C1 witness: a GET request and an empty-body POST, at a concrete
environment. -/
theorem handler_validation_witness :
    handler env0 ⟨"GET", none⟩ = ⟨405, errObj "Method not allowed"⟩ ∧
    handler env0 ⟨"POST", some (Json.obj [])⟩ =
      ⟨400, errObj "Missing \x27task\x27 in request body"⟩ := by
  constructor
  · exact ((handler_validation env0 env0 ⟨"GET", none⟩).1 (by decide)).1
  · exact ((handler_validation env0 env0 ⟨"POST", some (Json.obj [])⟩).2 rfl (by decide)).1

/-! ### Output length (claim C6) -/

theorem normalizeFrom_length : ∀ (idx : Nat) (ts out : List Json),
    normalizeFrom idx ts = some out → out.length = ts.length
  | _, [], out, h => by
      simp only [normalizeFrom] at h
      cases h
      rfl
  | idx, t :: ts, out, h => by
      simp only [normalizeFrom] at h
      cases he : normalizeEntry idx t with
      | none => rw [he] at h; cases h
      | some e =>
          rw [he] at h
          cases hr : normalizeFrom (idx + 1) ts with
          | none => rw [hr] at h; cases h
          | some l =>
              rw [hr] at h
              cases h
              simp [normalizeFrom_length (idx + 1) ts l hr]

/-- C6: when normalization succeeds, the output length is the raw length
capped at 20: exactly 20 for raw arrays longer than 20, the raw length
otherwise. -/
theorem normalizeList_length (ts out : List Json) (h : normalizeList ts = some out) :
    (ts.length > 20 → out.length = 20) ∧ (ts.length ≤ 20 → out.length = ts.length) := by
  have hl := normalizeFrom_length 0 (ts.take 20) out h
  rw [List.length_take] at hl
  constructor <;> intro hc <;> omega

/-- C6 witness: a 25-entry raw array yields exactly 20 entries, a 3-entry
raw array yields 3. -/
theorem normalizeList_length_witness :
    ((normalizeList (List.replicate 25 (Json.obj []))).getD []).length = 20 ∧
    ((normalizeList (List.replicate 3 (Json.obj []))).getD []).length = 3 := by
  constructor
  · have h1 : (normalizeList (List.replicate 25 (Json.obj []))).isSome = true := by decide
    obtain ⟨out, ho⟩ := Option.isSome_iff_exists.mp h1
    have := (normalizeList_length _ _ ho).1 (by decide)
    rw [ho]
    simpa using this
  · have h1 : (normalizeList (List.replicate 3 (Json.obj []))).isSome = true := by decide
    obtain ⟨out, ho⟩ := Option.isSome_iff_exists.mp h1
    have := (normalizeList_length _ _ ho).2 (by decide)
    rw [ho]
    simp only [Option.getD_some]
    rw [this]
    decide

/-! ### Per-entry normalization (claims C2, C3) -/

/-- On any non-`null` raw entry, `normalizeEntry` reduces to the literal
five-field object. -/
theorem normalizeEntry_ne_null (idx : Nat) (t : Json) (h : t ≠ Json.null) :
    normalizeEntry idx t = some (Json.obj [
      ("id", Json.num ((idx + 1 : Nat) : Rat)),
      ("text", Json.str (textVal (getField t "text"))),
      ("estimatedTime", Json.num (clampTime (getField t "estimatedTimeMinutes"))),
      ("priority", Json.str (priorityVal (getField t "priority"))),
      ("dependsOn", Json.arr (dependsVal (getField t "dependsOn")))]) := by
  cases t with
  | null => exact absurd rfl h
  | bool b => rfl
  | num q => rfl
  | str s => rfl
  | arr xs => rfl
  | obj fs => rfl

theorem clampTime_bounds (v : Option Json) : 10 ≤ clampTime v ∧ clampTime v ≤ 180 := by
  unfold clampTime
  constructor
  · exact le_max_left _ _
  · exact max_le (by norm_num) (min_le_left _ _)

theorem priorityVal_mem (v : Option Json) :
    priorityVal v = "high" ∨ priorityVal v = "medium" ∨ priorityVal v = "low" := by
  cases v with
  | none => simp [priorityVal]
  | some j =>
    cases j with
    | str s =>
        simp only [priorityVal]
        split
        · rename_i hs
          exact hs
        · simp
    | null => simp [priorityVal]
    | bool b => simp [priorityVal]
    | num q => simp [priorityVal]
    | arr xs => simp [priorityVal]
    | obj fs => simp [priorityVal]

/-- C3 (amended): the normalized `estimatedTime` is the numeric coercion of
the raw `estimatedTimeMinutes` clamped into [10,180] whenever that coercion
yields a nonzero number (nearest bound outside the range), and is 30 when
the coercion is `NaN` or `0` (the `|| 30` treats a zero coercion as
missing). -/
theorem estimatedTime_clamped (idx : Nat) (t e : Json) (h : t ≠ Json.null)
    (he : normalizeEntry idx t = some e) :
    (∀ q : Rat, jsToNumberU (getField t "estimatedTimeMinutes") = some q → q ≠ 0 →
        getField e "estimatedTime" = some (Json.num (max 10 (min 180 q))) ∧
        (q < 10 → max 10 (min 180 q) = 10) ∧
        (180 < q → max 10 (min 180 q) = (180 : Rat)) ∧
        (10 ≤ q → q ≤ 180 → max 10 (min 180 q) = q)) ∧
    (jsToNumberU (getField t "estimatedTimeMinutes") = none →
        getField e "estimatedTime" = some (Json.num 30)) ∧
    (jsToNumberU (getField t "estimatedTimeMinutes") = some 0 →
        getField e "estimatedTime" = some (Json.num 30)) := by
  rw [normalizeEntry_ne_null idx t h] at he
  injection he with he2
  subst he2
  have hf : getField (Json.obj [
      ("id", Json.num ((idx + 1 : Nat) : Rat)),
      ("text", Json.str (textVal (getField t "text"))),
      ("estimatedTime", Json.num (clampTime (getField t "estimatedTimeMinutes"))),
      ("priority", Json.str (priorityVal (getField t "priority"))),
      ("dependsOn", Json.arr (dependsVal (getField t "dependsOn")))]) "estimatedTime"
      = some (Json.num (clampTime (getField t "estimatedTimeMinutes"))) := rfl
  refine ⟨?_, ?_, ?_⟩
  · intro q hq hq0
    have hc : clampTime (getField t "estimatedTimeMinutes") = max 10 (min 180 q) := by
      unfold clampTime
      rw [hq]
      show max 10 (min 180 (if q = 0 then (30 : Rat) else q)) = max 10 (min 180 q)
      rw [if_neg hq0]
    refine ⟨by rw [hf, hc], ?_, ?_, ?_⟩
    · intro hlt
      rw [min_eq_right (by linarith), max_eq_left (by linarith)]
    · intro hgt
      rw [min_eq_left (by linarith)]
      exact max_eq_right (by norm_num)
    · intro h10 h180
      rw [min_eq_right h180]
      exact max_eq_right h10
  · intro hq
    have hc : clampTime (getField t "estimatedTimeMinutes") = 30 := by
      unfold clampTime
      rw [hq]
      show max 10 (min 180 (30 : Rat)) = 30
      norm_num
    rw [hf, hc]
  · intro hq
    have hc : clampTime (getField t "estimatedTimeMinutes") = 30 := by
      unfold clampTime
      rw [hq]
      show max 10 (min 180 (if (0 : Rat) = 0 then (30 : Rat) else 0)) = 30
      norm_num
    rw [hf, hc]

/-- C3 counterexample: a raw `estimatedTimeMinutes` of 0 coerces to the
number 0, which lies outside [10,180]; the claim demands the nearest bound
10, but the code produces 30 because `Number(0) || 30` discards the zero. -/
theorem estimatedTime_zero_cex :
    jsToNumberU (getField (Json.obj [("estimatedTimeMinutes", Json.num 0)])
      "estimatedTimeMinutes") = some 0 ∧
    (normalizeEntry 0 (Json.obj [("estimatedTimeMinutes", Json.num 0)])).map
      (fun e => getField e "estimatedTime") = some (some (Json.num 30)) ∧
    max 10 (min 180 (0 : Rat)) = 10 ∧ (30 : Rat) ≠ 10 := by decide

/-- C3 witness: 999 clamps to 180, -5 clamps to 10, `"abc"` defaults
to 30. -/
theorem estimatedTime_clamped_witness :
    getField ((normalizeEntry 0 (Json.obj [("estimatedTimeMinutes", Json.num 999)])).getD
      Json.null) "estimatedTime" = some (Json.num 180) ∧
    getField ((normalizeEntry 0 (Json.obj [("estimatedTimeMinutes", Json.num (-5))])).getD
      Json.null) "estimatedTime" = some (Json.num 10) ∧
    getField ((normalizeEntry 0 (Json.obj [("estimatedTimeMinutes", Json.str "abc")])).getD
      Json.null) "estimatedTime" = some (Json.num 30) := by
  refine ⟨?_, ?_, ?_⟩
  · have he : normalizeEntry 0 (Json.obj [("estimatedTimeMinutes", Json.num 999)])
        = some ((normalizeEntry 0 (Json.obj [("estimatedTimeMinutes", Json.num 999)])).getD
          Json.null) := by decide
    have h1 := ((estimatedTime_clamped 0 _ _ (by decide) he).1 999 (by decide) (by decide))
    rw [h1.1]
    rw [h1.2.2.1 (by norm_num)]
  · have he : normalizeEntry 0 (Json.obj [("estimatedTimeMinutes", Json.num (-5))])
        = some ((normalizeEntry 0 (Json.obj [("estimatedTimeMinutes", Json.num (-5))])).getD
          Json.null) := by decide
    have h1 := ((estimatedTime_clamped 0 _ _ (by decide) he).1 (-5) (by decide) (by decide))
    rw [h1.1]
    rw [h1.2.1 (by norm_num)]
  · have he : normalizeEntry 0 (Json.obj [("estimatedTimeMinutes", Json.str "abc")])
        = some ((normalizeEntry 0 (Json.obj [("estimatedTimeMinutes", Json.str "abc")])).getD
          Json.null) := by decide
    exact (estimatedTime_clamped 0 _ _ (by decide) he).2.1 (by decide)

/-- The id-field read of a freshly normalized entry. -/
theorem normalizeEntry_id (idx : Nat) (t e : Json) (he : normalizeEntry idx t = some e) :
    getField e "id" = some (Json.num ((idx + 1 : Nat) : Rat)) := by
  have ht : t ≠ Json.null := by
    intro hn
    rw [hn] at he
    cases he
  rw [normalizeEntry_ne_null idx t ht] at he
  injection he with he2
  subst he2
  rfl

theorem normalizeFrom_get (ts : List Json) : ∀ (idx i : Nat) (out : List Json) (e : Json),
    normalizeFrom idx ts = some out → out.get? i = some e →
    getField e "id" = some (Json.num ((idx + i + 1 : Nat) : Rat)) := by
  induction ts with
  | nil =>
      intro idx i out e h hg
      simp only [normalizeFrom] at h
      cases h
      simp at hg
  | cons t ts ih =>
      intro idx i out e h hg
      simp only [normalizeFrom] at h
      cases he : normalizeEntry idx t with
      | none => rw [he] at h; cases h
      | some e0 =>
          rw [he] at h
          cases hr : normalizeFrom (idx + 1) ts with
          | none => rw [hr] at h; cases h
          | some l =>
              rw [hr] at h
              cases h
              cases i with
              | zero =>
                  simp only [List.get?] at hg
                  cases hg
                  simpa using normalizeEntry_id idx t e he
              | succ i =>
                  simp only [List.get?] at hg
                  have := ih (idx + 1) i l e hr hg
                  have harith : idx + 1 + i + 1 = idx + (i + 1) + 1 := by omega
                  rwa [harith] at this

/-- C2 (amended): every non-`null` raw entry normalizes (without throwing)
to an object carrying exactly the five fields, with `estimatedTime` a
number in [10,180], `priority` one of the three enumerated strings,
`dependsOn` an array and `text` a string (possibly empty, when the raw text
coerces to pure whitespace); `id` is the 1-based position in the truncated
output; a raw `null` entry, however, makes the map throw. -/
theorem normalized_entry_wellformed :
    (∀ (idx : Nat) (t : Json), t ≠ Json.null →
      ∃ s q p ds, normalizeEntry idx t = some (Json.obj
          [("id", Json.num ((idx + 1 : Nat) : Rat)), ("text", Json.str s),
           ("estimatedTime", Json.num q), ("priority", Json.str p),
           ("dependsOn", Json.arr ds)]) ∧
        10 ≤ q ∧ q ≤ 180 ∧ (p = "high" ∨ p = "medium" ∨ p = "low")) ∧
    (∀ (ts out : List Json) (i : Nat) (e : Json),
      normalizeList ts = some out → out.get? i = some e →
      getField e "id" = some (Json.num ((i + 1 : Nat) : Rat))) ∧
    normalizeEntry 0 Json.null = none := by
  refine ⟨?_, ?_, rfl⟩
  · intro idx t h
    refine ⟨textVal (getField t "text"), clampTime (getField t "estimatedTimeMinutes"),
      priorityVal (getField t "priority"), dependsVal (getField t "dependsOn"),
      normalizeEntry_ne_null idx t h, (clampTime_bounds _).1, (clampTime_bounds _).2,
      priorityVal_mem _⟩
  · intro ts out i e h hg
    have := normalizeFrom_get (ts.take 20) 0 i out e h hg
    simpa using this

/-- C2 counterexample: a raw `null` entry makes normalization throw (the
claim promises a normalized entry for any JSON value including `null`), and
the raw entry `{text: " "}` is truthy yet trims to the empty string, so the
normalized `text` is not a non-empty string. -/
theorem normalized_entry_cex :
    normalizeList [Json.null] = none ∧
    (normalizeEntry 0 (Json.obj [("text", Json.str " ")])).map
      (fun e => getField e "text") = some (some (Json.str "")) := by
  constructor
  · decide
  · decide

/-- C2 witness: the second entry of a two-entry normalization carries
`id = 2`, and a concrete non-null entry normalizes to the full five-field
shape. -/
theorem normalized_entry_wellformed_witness :
    getField ((((normalizeList [Json.obj [], Json.obj []]).getD []).get? 1).getD Json.null)
      "id" = some (Json.num 2) ∧
    (normalizeEntry 7 (Json.str "plain")).isSome = true := by
  constructor
  · have hls : normalizeList [Json.obj [], Json.obj []]
        = some ((normalizeList [Json.obj [], Json.obj []]).getD []) := by decide
    have hg : ((normalizeList [Json.obj [], Json.obj []]).getD []).get? 1
        = some (((((normalizeList [Json.obj [], Json.obj []]).getD []).get? 1)).getD
          Json.null) := by decide
    have h2 := normalized_entry_wellformed.2.1 _ _ 1 _ hls hg
    rw [h2]
    norm_num
  · obtain ⟨s, q, p, ds, hmk, _⟩ :=
      normalized_entry_wellformed.1 7 (Json.str "plain") (by decide)
    rw [hmk]
    rfl

/-! ### The extraction chain of `safeParseJson` (claim C4) -/

/-- C4 (amended): `safeParseJson` tries the whole text first; if that fails
it locates a fenced block, or — only when no fenced block exists — the
largest brace-delimited substring, strips fence markers from the one block
it located and parses that; if nothing was located (or the located block
does not parse) the result is `none`, which the caller turns into an empty
task list.  A fenced block that fails to parse is *not* followed by a brace
scan. -/
theorem safeParseJson_chain (t : String) :
    (∀ v, jsonParse t = some v → safeParseJson t = some v) ∧
    (∀ m, jsonParse t = none → fencedMatch t.data = some m →
      safeParseJson t = jsonParse ⟨stripFences m⟩) ∧
    (∀ m, jsonParse t = none → fencedMatch t.data = none → braceMatch t.data = some m →
      safeParseJson t = jsonParse ⟨stripFences m⟩) ∧
    (jsonParse t = none → fencedMatch t.data = none → braceMatch t.data = none →
      safeParseJson t = none) ∧
    microTasksOf none = [] := by
  refine ⟨?_, ?_, ?_, ?_, rfl⟩
  · intro v hv
    simp [safeParseJson, hv]
  · intro m h1 h2
    simp [safeParseJson, h1, h2]
  · intro m h1 h2 h3
    simp [safeParseJson, h1, h2, h3]
  · intro h1 h2 h3
    simp [safeParseJson, h1, h2, h3]

/-- C4 counterexample: on
`x ```json oops``` {"a": 1}` the direct parse fails, the fenced block is
located but its content does not parse, and `safeParseJson` yields `none` —
although the brace-delimited substring `{"a": 1}` exists and parses, the
brace strategy is never attempted once a fenced block matched. -/
theorem safeParseJson_fenced_cex :
    safeParseJson "x ```json oops``` \x7b\"a\": 1\x7d" = none ∧
    jsonParse "x ```json oops``` \x7b\"a\": 1\x7d" = none ∧
    fencedMatch ("x ```json oops``` \x7b\"a\": 1\x7d").data = some ("```json oops```").data ∧
    jsonParse ⟨stripFences ("```json oops```").data⟩ = none ∧
    braceMatch ("x ```json oops``` \x7b\"a\": 1\x7d").data = some ("\x7b\"a\": 1\x7d").data ∧
    jsonParse ⟨stripFences ("\x7b\"a\": 1\x7d").data⟩ = some (Json.obj [("a", Json.num 1)]) := by
  refine ⟨by decide, by decide, by decide, by decide, by decide, by decide⟩

/-- C4 witness: a direct parse and a well-formed fenced block, at concrete
inputs. -/
theorem safeParseJson_chain_witness :
    safeParseJson "\x7b\"a\": 2\x7d" = some (Json.obj [("a", Json.num 2)]) ∧
    safeParseJson "t ```json \x7b\"b\": 3\x7d ```" = some (Json.obj [("b", Json.num 3)]) := by
  constructor
  · exact (safeParseJson_chain _).1 _ (by decide)
  · have h := (safeParseJson_chain "t ```json \x7b\"b\": 3\x7d ```").2.1
      ("```json \x7b\"b\": 3\x7d ```").data (by decide) (by decide)
    rw [h]
    decide

/-! ### The multi-query failure policy (claim C5) -/

/-- The contribution of one query: a throw (`none`), zero results for a
non-success status, or the mapped results. -/
def queryResultsOf : FetchOutcome → Option (List SearchResult)
  | .err => none
  | .notOk => some []
  | .ok d => mapResults d

/-- Per-query contributions collected in issue order; `none` as soon as one
query throws. -/
def collectQueries (f : Nat → FetchOutcome) : List Nat → Option (List (List SearchResult))
  | [] => some []
  | i :: is =>
    match queryResultsOf (f i) with
    | none => none
    | some rs => (collectQueries f is).map (fun acc => rs :: acc)

theorem runQueries_eq_collect (f : Nat → FetchOutcome) : ∀ (ids : List Nat),
    runQueries f ids =
      (collectQueries f ids).map (fun ls => ls.foldr (fun a b => a ++ b) []) := by
  intro ids
  induction ids with
  | nil => rfl
  | cons i is ih =>
    cases hf : f i with
    | err => simp [runQueries, collectQueries, hf, queryResultsOf]
    | notOk =>
        cases hm : collectQueries f is with
        | none => simp [runQueries, collectQueries, hf, queryResultsOf, ih, hm]
        | some ls => simp [runQueries, collectQueries, hf, queryResultsOf, ih, hm]
    | ok d =>
        cases hr : mapResults d with
        | none => simp [runQueries, collectQueries, hf, queryResultsOf, hr]
        | some rs =>
            cases hm : collectQueries f is with
            | none => simp [runQueries, collectQueries, hf, queryResultsOf, ih, hm, hr]
            | some ls => simp [runQueries, collectQueries, hf, queryResultsOf, ih, hm, hr]

theorem runQueries_err (f : Nat → FetchOutcome) : ∀ (ids : List Nat),
    (∃ i ∈ ids, f i = .err) → runQueries f ids = none := by
  intro ids
  induction ids with
  | nil => rintro ⟨i, hi, _⟩; cases hi
  | cons j is ih =>
    rintro ⟨i, hi, he⟩
    cases hf : f j with
    | err => simp [runQueries, hf]
    | notOk =>
        rcases List.mem_cons.mp hi with rfl | hi2
        · rw [hf] at he; cases he
        · simp only [runQueries, hf]
          exact ih ⟨i, hi2, he⟩
    | ok d =>
        rcases List.mem_cons.mp hi with rfl | hi2
        · rw [hf] at he; cases he
        · cases hr : mapResults d with
          | none => simp [runQueries, hf, hr]
          | some rs => simp [runQueries, hf, hr, ih ⟨i, hi2, he⟩]

/-- C5 (amended): each query contributes independently in issue order — a
non-success HTTP status is zero results for that query and the remaining
variants are still issued — but a *thrown* network/parse error on any query
aborts the whole multi-query phase (the `try` wraps the entire loop), so
accumulated results are discarded and the encyclopedia fallback is taken;
no error propagates to the caller (the model is total by construction). -/
theorem webSearch_failure_policy (env : Env) (task : String) :
    (∀ ids, runQueries env.serpFetch ids =
      ((collectQueries env.serpFetch ids).map
        (fun ls => ls.foldr (fun a b => a ++ b) []))) ∧
    ((∃ i ∈ serpQueryIds, env.serpFetch i = .err) → webSearch env task = wikiTry env) := by
  constructor
  · exact runQueries_eq_collect env.serpFetch
  · intro hex
    unfold webSearch serpTry
    cases hk : truthyKey env.serpKey with
    | false => simp
    | true => simp [runQueries_err env.serpFetch serpQueryIds hex]

/-- Raw SerpAPI body with a single organic result, for the C5 scenario. -/
def serpData1 : Json :=
  Json.obj [("organic_results", Json.arr
    [Json.obj [("title", Json.str "T"), ("link", Json.str "L")]])]

/-- C5 counterexample environment: the first query succeeds with one
result, the second throws, later ones report non-success. -/
def envC5 : Env :=
  { serpKey := some "k", openAIKey := none, anthropicKey := none,
    serpFetch := fun i => if i = 0 then .ok serpData1 else if i = 1 then .err else .notOk,
    wikiFetch := .notOk, pageFetch := fun _ => .notOk, llm := fun _ => .fail "x" }

/-- C5 counterexample: query 0 already yielded a result and query 1 threw;
the claim says that error is swallowed as zero results for query 1 alone
with earlier results kept, but the code discards everything and falls to
the (here empty) encyclopedia fallback: `webSearch` returns `[]`. -/
theorem webSearch_discards_cex :
    mapResults serpData1 =
      some [⟨some (Json.str "T"), some (Json.str "L"), Json.str ""⟩] ∧
    envC5.serpFetch 0 = .ok serpData1 ∧ envC5.serpFetch 1 = .err ∧
    webSearch envC5 "t" = [] := by
  refine ⟨by decide, by decide, by decide, by decide⟩

/-- C5 witness: at the concrete environment the fallback is provably
taken. -/
theorem webSearch_failure_policy_witness :
    webSearch envC5 "t" = wikiTry envC5 := by
  exact (webSearch_failure_policy envC5 "t").2 ⟨1, by decide, by decide⟩

/-! ### The webSearch contract (claim C7) -/

theorem dedup_go_not_seen : ∀ (l : List SearchResult) (seen : List (Option Json))
    (r : SearchResult), r ∈ dedupByLink.go seen l → r.link ∉ seen := by
  intro l
  induction l with
  | nil => intro seen r hr; cases hr
  | cons x xs ih =>
    intro seen r hr
    simp only [dedupByLink.go] at hr
    split at hr
    · exact ih seen r hr
    · rcases List.mem_cons.mp hr with rfl | hr2
      · rename_i hnot
        exact hnot
      · intro hmem
        exact (ih _ r hr2) (List.mem_cons_of_mem _ hmem)

theorem dedup_go_nodup : ∀ (l : List SearchResult) (seen : List (Option Json)),
    ((dedupByLink.go seen l).map (fun r => r.link)).Nodup := by
  intro l
  induction l with
  | nil => intro seen; simp [dedupByLink.go]
  | cons x xs ih =>
    intro seen
    simp only [dedupByLink.go]
    split
    · exact ih seen
    · simp only [List.map_cons, List.nodup_cons]
      constructor
      · intro hmem
        rcases List.mem_map.mp hmem with ⟨r, hr, hlink⟩
        exact (dedup_go_not_seen xs _ r hr) (by rw [hlink]; exact List.mem_cons_self _ _)
      · exact ih _

theorem dedup_go_first : ∀ (l : List SearchResult) (seen : List (Option Json))
    (r : SearchResult), r ∈ dedupByLink.go seen l →
    l.find? (fun x => x.link == r.link) = some r := by
  intro l
  induction l with
  | nil => intro seen r hr; cases hr
  | cons x xs ih =>
    intro seen r hr
    simp only [dedupByLink.go] at hr
    split at hr
    · rename_i hseen
      have hne : ¬ (x.link == r.link) = true := by
        simp only [beq_iff_eq]
        intro hx
        exact (dedup_go_not_seen xs seen r hr) (hx ▸ hseen)
      rw [@List.find?_cons_of_neg _ (fun y => y.link == r.link) x xs hne]
      exact ih seen r hr
    · rename_i hseen
      rcases List.mem_cons.mp hr with rfl | hr2
      · exact @List.find?_cons_of_pos _ (fun y => y.link == r.link) r xs (by simp)
      · have hne : ¬ (x.link == r.link) = true := by
          simp only [beq_iff_eq]
          intro hx
          exact (dedup_go_not_seen xs _ r hr2) (by rw [hx]; exact List.mem_cons_self _ _)
        rw [@List.find?_cons_of_neg _ (fun y => y.link == r.link) x xs hne]
        exact ih _ r hr2

theorem dedup_go_sublist : ∀ (l : List SearchResult) (seen : List (Option Json)),
    (dedupByLink.go seen l).Sublist l := by
  intro l
  induction l with
  | nil => intro seen; simp [dedupByLink.go]
  | cons x xs ih =>
    intro seen
    simp only [dedupByLink.go]
    split
    · exact (ih seen).cons x
    · exact (ih _).cons₂ x

/-- C7 (amended): `webSearch` always returns at most 8 results; on the
primary-provider path (the one that deduplicates) the returned list has
pairwise-distinct `link` values, is a subsequence of the deduplicated
concatenation, and every returned entry is the *first* entry of the raw
concatenation carrying its `link` (first occurrence wins).  The
encyclopedia fallback path performs no deduplication (see the
counterexample), so distinctness holds only for the primary path. -/
theorem webSearch_contract (env : Env) (task : String) :
    (webSearch env task).length ≤ 8 ∧
    (∀ all rs, runQueries env.serpFetch serpQueryIds = some all →
      serpTry env = some rs →
      webSearch env task = rs ∧
      (rs.map (fun r => r.link)).Nodup ∧
      (∀ r ∈ rs, all.find? (fun x => x.link == r.link) = some r) ∧
      rs.Sublist (dedupByLink all)) := by
  have hser : ∀ all rs, runQueries env.serpFetch serpQueryIds = some all →
      serpTry env = some rs → rs = (dedupByLink all).take 8 := by
    intro all rs hruns hst
    unfold serpTry at hst
    cases hk : truthyKey env.serpKey with
    | false => rw [hk] at hst; simp at hst
    | true =>
        rw [hk] at hst
        simp only [if_true, hruns] at hst
        split at hst
        · cases hst
        · injection hst with h2
          exact h2.symm
  constructor
  · cases hst : serpTry env with
    | some rs =>
        have hweb : webSearch env task = rs := by unfold webSearch; rw [hst]
        rw [hweb]
        cases hruns : runQueries env.serpFetch serpQueryIds with
        | some all =>
            rw [hser all rs hruns hst, List.length_take]
            exact Nat.min_le_left _ _
        | none =>
            exfalso
            unfold serpTry at hst
            cases hk : truthyKey env.serpKey with
            | false => rw [hk] at hst; simp at hst
            | true =>
                rw [hk] at hst
                simp [if_true, hruns] at hst
    | none =>
        have hweb : webSearch env task = wikiTry env := by unfold webSearch; rw [hst]
        rw [hweb]
        unfold wikiTry
        cases env.wikiFetch with
        | err => simp
        | notOk => simp
        | ok data =>
            cases hm : wikiMap data with
            | none => simp [hm]
            | some ps =>
                simp only [hm, List.length_take]
                calc 3 ⊓ ps.length ≤ 3 := Nat.min_le_left _ _
                  _ ≤ 8 := by omega
  · intro all rs hruns hst
    have hrs := hser all rs hruns hst
    subst hrs
    refine ⟨?_, ?_, ?_, List.take_sublist _ _⟩
    · unfold webSearch
      rw [hst]
    · rw [List.map_take]
      exact List.Nodup.sublist (List.take_sublist _ _) (dedup_go_nodup all [])
    · intro r hr
      exact dedup_go_first all [] r (List.take_subset _ _ hr)

/-- Wikipedia body with two hits whose distinct titles construct the same
article URL. -/
def wikiData7 : Json :=
  Json.obj [("query", Json.obj [("search", Json.arr
    [Json.obj [("title", Json.str "a b")], Json.obj [("title", Json.str "a_b")]])])]

def envC7 : Env :=
  { serpKey := none, openAIKey := none, anthropicKey := none,
    serpFetch := fun _ => .notOk, wikiFetch := .ok wikiData7,
    pageFetch := fun _ => .notOk, llm := fun _ => .fail "x" }

/-- C7 counterexample: on the fallback path the titles `"a b"` and `"a_b"`
both construct the link `…/wiki/a_b`, and both entries survive — the output
carries two entries with equal `link` and different `title`, violating the
no-duplicate-links contract (only the primary path deduplicates). -/
theorem webSearch_dup_link_cex :
    (webSearch envC7 "t").map (fun r => r.title) =
      [some (Json.str "a b"), some (Json.str "a_b")] ∧
    (webSearch envC7 "t").map (fun r => r.link) =
      [some (Json.str "https://en.wikipedia.org/wiki/a_b"),
       some (Json.str "https://en.wikipedia.org/wiki/a_b")] ∧
    ¬ ((webSearch envC7 "t").map (fun r => r.link)).Nodup := by
  refine ⟨by decide, by decide, by decide⟩

/-- Primary-path environment for the C7 witness: one query returns three
results with a duplicated link. -/
def serpDataDup : Json :=
  Json.obj [("organic_results", Json.arr
    [Json.obj [("title", Json.str "X"), ("link", Json.str "L")],
     Json.obj [("title", Json.str "Y"), ("link", Json.str "L")],
     Json.obj [("title", Json.str "Z"), ("link", Json.str "M")]])]

def envC7w : Env :=
  { serpKey := some "k", openAIKey := none, anthropicKey := none,
    serpFetch := fun i => if i = 0 then .ok serpDataDup else .notOk,
    wikiFetch := .notOk, pageFetch := fun _ => .notOk, llm := fun _ => .fail "x" }

def allC7w : List SearchResult :=
  [⟨some (Json.str "X"), some (Json.str "L"), Json.str ""⟩,
   ⟨some (Json.str "Y"), some (Json.str "L"), Json.str ""⟩,
   ⟨some (Json.str "Z"), some (Json.str "M"), Json.str ""⟩]

def rsC7w : List SearchResult :=
  [⟨some (Json.str "X"), some (Json.str "L"), Json.str ""⟩,
   ⟨some (Json.str "Z"), some (Json.str "M"), Json.str ""⟩]

/-- C7 witness: the duplicated link `L` keeps only its first carrier `X`. -/
theorem webSearch_contract_witness :
    (webSearch envC7w "t").length ≤ 8 ∧ webSearch envC7w "t" = rsC7w := by
  constructor
  · exact (webSearch_contract envC7w "t").1
  · exact ((webSearch_contract envC7w "t").2 allC7w rsC7w (by decide) (by decide)).1

/-! ### The success response (claim C9) -/

/-- The pages fetched by the handler:
`results.length ? await fetchPages(results) : []`. -/
def pagesOf (env : Env) (s : String) : List Page :=
  if (webSearch env s).length ≠ 0 then fetchPages env.pageFetch 0 (webSearch env s) else []

theorem sourceBlock_ne_empty (i : Nat) (p : Page) : sourceBlock i p ≠ "" := by
  intro h
  have hd : (sourceBlock i p).data = "".data := congrArg String.data h
  unfold sourceBlock at hd
  simp at hd

theorem joinBlocks_ne_empty (b : String) (bs : List String) (hb : b ≠ "") :
    joinBlocks (b :: bs) ≠ "" := by
  cases bs with
  | nil => exact hb
  | cons c cs =>
    intro h
    have hd : (joinBlocks (b :: c :: cs)).data = "".data := congrArg String.data h
    simp only [joinBlocks, String.data_append] at hd
    simp at hd

theorem contextOf_ne_empty (pages : List Page) (h : pages ≠ []) : contextOf pages ≠ "" := by
  cases pages with
  | nil => exact absurd rfl h
  | cons p ps =>
    unfold contextOf
    rw [if_pos (by simp)]
    rw [show (p :: ps).take 3 = p :: ps.take 2 from rfl]
    rw [show sourceBlocks 0 (p :: ps.take 2) = sourceBlock 0 p :: sourceBlocks 1 (ps.take 2)
      from rfl]
    exact joinBlocks_ne_empty _ _ (sourceBlock_ne_empty 0 p)

/-- C9: on the success path the response is 200 and its body carries the
normalized list under `breakdown`, one `{title, url}` pair per research
result in order under `sources` (the sources are computed from the research
results alone — the page-fetch oracle provably cannot change them), and
`meta.usedWebResearch` is the flag `pages.length > 0`, which holds exactly
when the prompt context embeds at least one fetched page (the context
string is non-empty iff a page exists). -/
theorem handler_success (env : Env) (method : String) (body : Option Json) (s raw : String)
    (norm : List Json)
    (hm : method = "POST") (ht : taskOf body = some (Json.str s)) (hs : s ≠ "")
    (hc : completionOf env (buildPrompt s (pagesOf env s)) = .ok raw)
    (hn : normalizeList (microTasksOf (safeParseJson raw)) = some norm) :
    handler env ⟨method, body⟩ =
      ⟨200, successBody norm (webSearch env s) (pagesOf env s)⟩ ∧
    ((webSearch env s).map mkSource).length = (webSearch env s).length ∧
    (pagesOf env s ≠ [] ↔ contextOf (pagesOf env s) ≠ "") ∧
    (∀ g, webSearch { env with pageFetch := g } s = webSearch env s) := by
  refine ⟨?_, by simp, ?_, fun g => rfl⟩
  · subst hm
    unfold pagesOf at hc
    simp only [handler, ht]
    rw [if_neg (by simp)]
    simp only [hc, hn]
    rw [if_neg hs]
    rfl
  · constructor
    · exact contextOf_ne_empty _
    · intro hc2
      intro hp
      rw [hp] at hc2
      exact hc2 rfl

def bodyW : Json := Json.obj [("task", Json.str "t")]

def rawW : String := "\x7b\"microTasks\": [\x7b\"text\": \"a\"\x7d, \x7b\"text\": \"b\"\x7d]\x7d"

def envW : Env :=
  { serpKey := none, openAIKey := some "k", anthropicKey := none,
    serpFetch := fun _ => .notOk, wikiFetch := .notOk, pageFetch := fun _ => .notOk,
    llm := fun _ => .ok rawW }

/-- C9 witness: a full concrete success scenario (no research results, an
OpenAI-style completion returning two tasks). -/
theorem handler_success_witness :
    (handler envW ⟨"POST", some bodyW⟩).status = 200 := by
  have hn : normalizeList (microTasksOf (safeParseJson rawW))
      = some ((normalizeList (microTasksOf (safeParseJson rawW))).getD []) := by decide
  have h := (handler_success envW "POST" (some bodyW) "t" rawW _ rfl (by decide) (by decide)
    rfl hn).1
  rw [h]

/-! ### Whitespace normalization facts about `stripHtml` (claim C8) -/

/-- No two adjacent whitespace characters. -/
def noDoubleWs : List Char → Bool
  | [] => true
  | [_] => true
  | a :: b :: rest => !(isWs a && isWs b) && noDoubleWs (b :: rest)

theorem noDouble_tail (c : Char) (xs : List Char) (h : noDoubleWs (c :: xs) = true) :
    noDoubleWs xs = true := by
  cases xs with
  | nil => rfl
  | cons d ds =>
    simp only [noDoubleWs, Bool.and_eq_true] at h
    exact h.2

theorem noDouble_cons (c : Char) (xs : List Char) (hc : isWs c = false)
    (hxs : noDoubleWs xs = true) : noDoubleWs (c :: xs) = true := by
  cases xs with
  | nil => rfl
  | cons d ds => simp [noDoubleWs, hc, hxs]

theorem mem_collapseWs (cs : List Char) : ∀ c ∈ collapseWs cs, c ∈ cs ∨ c = ' ' := by
  induction cs using collapseWs.induct with
  | case1 => intro c hc; simp [collapseWs] at hc
  | case2 e r4 hws ih =>
      intro c hc
      rw [show collapseWs (e :: r4) = ' ' :: collapseWs (r4.dropWhile isWs) from by
        simp only [collapseWs, hws, if_true]] at hc
      rcases List.mem_cons.mp hc with rfl | hc2
      · right; rfl
      · rcases ih c hc2 with hm | hsp
        · exact Or.inl (List.mem_cons_of_mem _ (List.dropWhile_subset isWs hm))
        · exact Or.inr hsp
  | case3 e r4 hnws ih =>
      intro c hc
      rw [show collapseWs (e :: r4) = e :: collapseWs r4 from by
        simp [collapseWs, hnws]] at hc
      rcases List.mem_cons.mp hc with rfl | hc2
      · exact Or.inl (List.mem_cons_self _ _)
      · rcases ih c hc2 with hm | hsp
        · exact Or.inl (List.mem_cons_of_mem _ hm)
        · exact Or.inr hsp

theorem allWs_collapseWs (cs : List Char) :
    ∀ c ∈ collapseWs cs, isWs c = true → c = ' ' := by
  induction cs using collapseWs.induct with
  | case1 => intro c hc; simp [collapseWs] at hc
  | case2 e r4 hws ih =>
      intro c hc hcw
      rw [show collapseWs (e :: r4) = ' ' :: collapseWs (r4.dropWhile isWs) from by
        simp only [collapseWs, hws, if_true]] at hc
      rcases List.mem_cons.mp hc with rfl | hc2
      · rfl
      · exact ih c hc2 hcw
  | case3 e r4 hnws ih =>
      intro c hc hcw
      rw [show collapseWs (e :: r4) = e :: collapseWs r4 from by
        simp [collapseWs, hnws]] at hc
      rcases List.mem_cons.mp hc with rfl | hc2
      · exact absurd hcw (by simpa using hnws)
      · exact ih c hc2 hcw

theorem noDouble_collapseWs (cs : List Char) : noDoubleWs (collapseWs cs) = true := by
  induction cs using collapseWs.induct with
  | case1 => simp [collapseWs, noDoubleWs]
  | case2 e r4 hws ih =>
      rw [show collapseWs (e :: r4) = ' ' :: collapseWs (r4.dropWhile isWs) from by
        simp only [collapseWs, hws, if_true]]
      cases hd : r4.dropWhile isWs with
      | nil => simp [collapseWs, noDoubleWs]
      | cons d ds =>
          have hdw : isWs d = false := by
            have hne : r4.dropWhile isWs ≠ [] := by rw [hd]; simp
            have := List.head_dropWhile_not isWs r4 hne
            simpa [hd] using this
          rw [hd] at ih
          rw [show collapseWs (d :: ds) = d :: collapseWs ds from by
            simp [collapseWs, hdw]] at ih ⊢
          simpa [noDoubleWs, hdw] using ih
  | case3 e r4 hnws ih =>
      rw [show collapseWs (e :: r4) = e :: collapseWs r4 from by
        simp [collapseWs, hnws]]
      exact noDouble_cons e _ (by simpa using hnws) ih

theorem noDouble_append_left (p t : List Char) (h : noDoubleWs (p ++ t) = true) :
    noDoubleWs p = true := by
  induction p with
  | nil => rfl
  | cons a p2 ih =>
      cases p2 with
      | nil => rfl
      | cons b p3 =>
          simp only [List.cons_append, noDoubleWs, Bool.and_eq_true] at h ⊢
          exact ⟨h.1, by simpa using ih (by simpa using h.2)⟩

theorem noDouble_append_right (p t : List Char) (h : noDoubleWs (p ++ t) = true) :
    noDoubleWs t = true := by
  induction p with
  | nil => exact h
  | cons a p2 ih => exact ih (noDouble_tail _ _ h)

/-- `trimEndL` is a prefix: something was cut from the end. -/
theorem trimEndL_append (l : List Char) : ∃ t, trimEndL l ++ t = l := by
  obtain ⟨p, hp⟩ := (List.dropWhile_suffix isWs (l := l.reverse))
  refine ⟨p.reverse, ?_⟩
  unfold trimEndL
  have := congrArg List.reverse hp
  simpa [List.reverse_append] using this

/-- `dropWhile` is a suffix: something was cut from the front. -/
theorem dropWhile_append (l : List Char) : ∃ p, p ++ l.dropWhile isWs = l :=
  List.dropWhile_suffix isWs

theorem noDouble_trimL (l : List Char) (h : noDoubleWs l = true) :
    noDoubleWs (trimL l) = true := by
  obtain ⟨p, hp⟩ := dropWhile_append l
  have h1 : noDoubleWs (l.dropWhile isWs) = true :=
    noDouble_append_right p _ (by rw [hp]; exact h)
  obtain ⟨t, ht⟩ := trimEndL_append (l.dropWhile isWs)
  exact noDouble_append_left _ t (by unfold trimL; rw [ht]; exact h1)

theorem allWs_trimL (l : List Char) (h : ∀ c ∈ l, isWs c = true → c = ' ') :
    ∀ c ∈ trimL l, isWs c = true → c = ' ' := by
  intro c hc
  obtain ⟨t, ht⟩ := trimEndL_append (l.dropWhile isWs)
  have h1 : c ∈ l.dropWhile isWs := by
    rw [← ht]
    exact List.mem_append_left _ hc
  exact h c (List.dropWhile_subset isWs h1)

/-- C8 (amended): for every input (including `null` and the empty string)
the sanitizer returns, without throwing, a string with no run of more than
one consecutive whitespace character, and returns the empty string on
`null`/empty input.  (Markup brackets that do not form a complete tag may
survive — see the counterexample.) -/
theorem stripHtml_ws_normalized :
    (∀ m : Option String, noDoubleWs (stripHtml m).data = true) ∧
    stripHtml none = "" ∧ stripHtml (some "") = "" := by
  refine ⟨?_, rfl, rfl⟩
  intro m
  cases m with
  | none => rfl
  | some s =>
    by_cases hs : s = ""
    · rw [hs]; rfl
    · have hr : stripHtml (some s) = ⟨stripHtmlL s.data⟩ := by simp [stripHtml, hs]
      rw [hr]
      show noDoubleWs (stripHtmlL s.data) = true
      unfold stripHtmlL
      exact noDouble_trimL _ (noDouble_collapseWs _)

/-- C8 counterexample: `"a < b"` contains `<` with no subsequent `>`, so no
tag pattern matches and the `<` survives sanitization — the output is not
free of markup-bracket characters. -/
theorem stripHtml_keeps_lt_cex :
    stripHtml (some "a < b") = "a < b" ∧ '<' ∈ "a < b".data := by
  constructor
  · simp [stripHtml, stripHtmlL, blockStrip, matchI, eqI, lowerC, dropAfterI,
          tagStrip, splitGt, collapseWs, isWs, jsWsChars, trimL, trimEndL,
          scriptOpen, scriptClose, styleOpen, styleClose, String.data]
  · decide

/-! ### Idempotence of `stripHtml` (claim C10)

Key invariant of the output of the tag pass: every surviving `<` is either
immediately followed by `>` (the empty tag `<>`, which the regex cannot
match) or has no `>` anywhere after it.  On such strings none of the three
tag-oriented regexes can match, so every pass of a second `stripHtml` run
is the identity. -/

/-- Every `<` is immediately followed by `>` or has no later `>`. -/
def brOkB : List Char → Bool
  | [] => true
  | c :: rest =>
    if c = '<' then
      match rest with
      | [] => true
      | d :: rest2 => if d = '>' then brOkB rest2 else !(rest.contains '>')
    else brOkB rest

theorem brOkB_nil : brOkB [] = true := by rw [brOkB.eq_def]

theorem brOkB_lt_nil : brOkB ['<'] = true := by rw [brOkB.eq_def]; rfl

theorem brOkB_lt_gt (r2 : List Char) : brOkB ('<' :: '>' :: r2) = brOkB r2 := by
  rw [brOkB.eq_def]; simp

theorem brOkB_lt_ne (d : Char) (r2 : List Char) (hd : d ≠ '>') :
    brOkB ('<' :: d :: r2) = !((d :: r2).contains '>') := by
  rw [brOkB.eq_def]; simp [hd]

theorem brOkB_cons_ne (c : Char) (x : List Char) (hc : c ≠ '<') :
    brOkB (c :: x) = brOkB x := by
  rw [brOkB.eq_def]; simp [hc]

theorem contains_gt_iff (l : List Char) : (l.contains '>') = false ↔ '>' ∉ l := by simp

theorem brOk_of_no_gt : ∀ (cs : List Char), '>' ∉ cs → brOkB cs = true := by
  intro cs
  induction cs using brOkB.induct with
  | case1 => intro _; exact brOkB_nil
  | case2 => intro _; exact brOkB_lt_nil
  | case3 r2 ih =>
      intro h
      exact absurd (List.mem_cons_of_mem _ (List.mem_cons_self _ _)) h
  | case4 d r2 hd =>
      intro h
      rw [brOkB_lt_ne d r2 hd]
      have : '>' ∉ (d :: r2) := fun hm => h (List.mem_cons_of_mem _ hm)
      rw [(contains_gt_iff _).mpr this]
      rfl
  | case5 c rest hc ih =>
      intro h
      rw [brOkB_cons_ne c rest hc]
      exact ih (fun hm => h (List.mem_cons_of_mem _ hm))

theorem brOk_tail (c : Char) (rest : List Char) (h : brOkB (c :: rest) = true) :
    brOkB rest = true := by
  by_cases hc : c = '<'
  · subst hc
    cases rest with
    | nil => exact brOkB_nil
    | cons d r2 =>
      by_cases hd : d = '>'
      · subst hd
        rw [brOkB_lt_gt] at h
        rw [brOkB_cons_ne '>' r2 (by decide)]
        exact h
      · rw [brOkB_lt_ne d r2 hd, Bool.not_eq_eq_eq_not, Bool.not_true] at h
        exact brOk_of_no_gt _ ((contains_gt_iff _).mp h)
  · rwa [brOkB_cons_ne c rest hc] at h

theorem brOk_append_left : ∀ (p t : List Char), brOkB (p ++ t) = true → brOkB p = true := by
  intro p
  induction p using brOkB.induct with
  | case1 => intro t _; exact brOkB_nil
  | case2 => intro t _; exact brOkB_lt_nil
  | case3 r2 ih =>
      intro t h
      rw [List.cons_append, List.cons_append, brOkB_lt_gt] at h
      rw [brOkB_lt_gt]
      exact ih t h
  | case4 d r2 hd =>
      intro t h
      rw [List.cons_append, List.cons_append, brOkB_lt_ne d _ hd,
        Bool.not_eq_eq_eq_not, Bool.not_true] at h
      have hng : '>' ∉ (d :: r2) ++ t := (contains_gt_iff _).mp (by
        rw [← List.cons_append] at h
        exact h)
      rw [brOkB_lt_ne d r2 hd, Bool.not_eq_eq_eq_not, Bool.not_true]
      exact (contains_gt_iff _).mpr (fun hm => hng (List.mem_append_left _ hm))
  | case5 c rest hc ih =>
      intro t h
      rw [List.cons_append, brOkB_cons_ne c _ hc] at h
      rw [brOkB_cons_ne c rest hc]
      exact ih t h

theorem splitGt_none_iff : ∀ (cs : List Char), splitGt cs = none ↔ '>' ∉ cs := by
  intro cs
  induction cs with
  | nil => simp [splitGt]
  | cons c ds ih =>
    by_cases hc : c = '>'
    · subst hc
      simp [splitGt]
    · simp [splitGt, hc, Option.map_eq_none, ih]
      exact fun _ h2 => hc h2.symm

theorem splitGt_some_eq : ∀ (cs g a : List Char), splitGt cs = some (g, a) →
    cs = g ++ '>' :: a ∧ '>' ∉ g := by
  intro cs
  induction cs with
  | nil => intro g a h; simp [splitGt] at h
  | cons c ds ih =>
    intro g a h
    by_cases hc : c = '>'
    · subst hc
      simp only [splitGt, if_pos rfl] at h
      injection h with h2
      injection h2 with hg ha
      subst hg; subst ha
      exact ⟨rfl, List.not_mem_nil _⟩
    · simp only [splitGt, if_neg hc] at h
      cases hs : splitGt ds with
      | none => rw [hs] at h; cases h
      | some p =>
          rw [hs] at h
          simp only [Option.map_some'] at h
          injection h with h2
          injection h2 with hg ha
          obtain ⟨hds, hng⟩ := ih p.1 p.2 (by rw [hs])
          subst ha
          constructor
          · rw [← hg]
            simp [hds]
          · rw [← hg]
            intro hm
            rcases List.mem_cons.mp hm with h1 | h1
            · exact hc h1.symm
            · exact hng h1

theorem tagStrip_nil : tagStrip [] = [] := by rw [tagStrip.eq_def]

theorem tagStrip_lt_gap0 (r4 after : List Char) (h : splitGt r4 = some ([], after)) :
    tagStrip ('<' :: r4) = '<' :: tagStrip r4 := by
  rw [tagStrip.eq_def]
  simp only []
  split
  · split
    · rename_i gap2 after2 heq
      rw [h] at heq
      injection heq with h2
      injection h2 with hg2 ha2
      subst hg2
      simp
    · rfl
  · rename_i hf
    exact absurd trivial hf

theorem tagStrip_lt_gap (r4 gap after : List Char) (h : splitGt r4 = some (gap, after))
    (hg : gap ≠ []) : tagStrip ('<' :: r4) = ' ' :: tagStrip after := by
  rw [tagStrip.eq_def]
  simp only []
  split
  · split
    · rename_i gap2 after2 heq
      rw [h] at heq
      injection heq with h2
      injection h2 with hg2 ha2
      subst hg2
      subst ha2
      simp [hg]
    · rename_i heq
      rw [h] at heq
      cases heq
  · rename_i hf
    exact absurd trivial hf

theorem tagStrip_lt_none (r4 : List Char) (h : splitGt r4 = none) :
    tagStrip ('<' :: r4) = '<' :: tagStrip r4 := by
  rw [tagStrip.eq_def]
  simp only []
  split
  · split
    · rename_i gap2 after2 heq
      rw [h] at heq
      cases heq
    · rfl
  · rename_i hf
    exact absurd trivial hf

theorem tagStrip_ne (c : Char) (r4 : List Char) (hc : c ≠ '<') :
    tagStrip (c :: r4) = c :: tagStrip r4 := by
  rw [tagStrip.eq_def]; simp [hc]

theorem mem_tagStrip : ∀ (cs : List Char), ∀ c ∈ tagStrip cs, c ∈ cs ∨ c = ' ' := by
  intro cs
  induction cs using tagStrip.induct with
  | case1 => intro c hc; rw [tagStrip_nil] at hc; cases hc
  | case2 r4 after h ih =>
      intro c hc
      rw [tagStrip_lt_gap0 r4 after h] at hc
      rcases List.mem_cons.mp hc with rfl | hc2
      · exact Or.inl (List.mem_cons_self _ _)
      · rcases ih c hc2 with hm | hsp
        · exact Or.inl (List.mem_cons_of_mem _ hm)
        · exact Or.inr hsp
  | case3 r4 gap after h hg ih =>
      intro c hc
      rw [tagStrip_lt_gap r4 gap after h hg] at hc
      rcases List.mem_cons.mp hc with rfl | hc2
      · exact Or.inr rfl
      · rcases ih c hc2 with hm | hsp
        · refine Or.inl (List.mem_cons_of_mem _ ?_)
          rw [(splitGt_some_eq r4 gap after h).1]
          exact List.mem_append_right _ (List.mem_cons_of_mem _ hm)
        · exact Or.inr hsp
  | case4 r4 h ih =>
      intro c hc
      rw [tagStrip_lt_none r4 h] at hc
      rcases List.mem_cons.mp hc with rfl | hc2
      · exact Or.inl (List.mem_cons_self _ _)
      · rcases ih c hc2 with hm | hsp
        · exact Or.inl (List.mem_cons_of_mem _ hm)
        · exact Or.inr hsp
  | case5 e r4 hc ih =>
      intro c hcm
      rw [tagStrip_ne e r4 hc] at hcm
      rcases List.mem_cons.mp hcm with rfl | hc2
      · exact Or.inl (List.mem_cons_self _ _)
      · rcases ih c hc2 with hm | hsp
        · exact Or.inl (List.mem_cons_of_mem _ hm)
        · exact Or.inr hsp

theorem no_gt_tagStrip (cs : List Char) (h : '>' ∉ cs) : '>' ∉ tagStrip cs := by
  intro hm
  rcases mem_tagStrip cs '>' hm with h2 | h2
  · exact h h2
  · cases h2

theorem brOk_of_head_no_gt (x : List Char) (h : '>' ∉ x) : brOkB ('<' :: x) = true := by
  cases x with
  | nil => exact brOkB_lt_nil
  | cons d X =>
    have hd : d ≠ '>' := fun hdx => h (hdx ▸ List.mem_cons_self _ _)
    rw [brOkB_lt_ne d X hd, (contains_gt_iff _).mpr h]
    rfl

theorem brOk_tagStrip : ∀ (cs : List Char), brOkB (tagStrip cs) = true := by
  intro cs
  induction cs using tagStrip.induct with
  | case1 => rw [tagStrip_nil]; exact brOkB_nil
  | case2 r4 after h ih =>
      have hr4 : r4 = '>' :: after := by simpa using (splitGt_some_eq r4 [] after h).1
      rw [tagStrip_lt_gap0 r4 after h]
      subst hr4
      rw [tagStrip_ne '>' after (by decide)] at ih ⊢
      rw [brOkB_lt_gt]
      rwa [brOkB_cons_ne '>' _ (by decide)] at ih
  | case3 r4 gap after h hg ih =>
      rw [tagStrip_lt_gap r4 gap after h hg]
      rwa [brOkB_cons_ne ' ' _ (by decide)]
  | case4 r4 h ih =>
      rw [tagStrip_lt_none r4 h]
      exact brOk_of_head_no_gt _ (no_gt_tagStrip r4 ((splitGt_none_iff r4).mp h))
  | case5 e r4 hc ih =>
      rw [tagStrip_ne e r4 hc]
      rwa [brOkB_cons_ne e _ hc]

theorem tagStrip_no_gt : ∀ (cs : List Char), '>' ∉ cs → tagStrip cs = cs := by
  intro cs
  induction cs using tagStrip.induct with
  | case1 => intro _; exact tagStrip_nil
  | case2 r4 after h ih =>
      intro hng
      exfalso
      refine hng (List.mem_cons_of_mem _ ?_)
      rw [(splitGt_some_eq r4 [] after h).1]
      simp
  | case3 r4 gap after h hg ih =>
      intro hng
      exfalso
      refine hng (List.mem_cons_of_mem _ ?_)
      rw [(splitGt_some_eq r4 gap after h).1]
      exact List.mem_append_right _ (List.mem_cons_self _ _)
  | case4 r4 h ih =>
      intro hng
      rw [tagStrip_lt_none r4 h,
        ih (fun hm => hng (List.mem_cons_of_mem _ hm))]
  | case5 e r4 hc ih =>
      intro hng
      rw [tagStrip_ne e r4 hc, ih (fun hm => hng (List.mem_cons_of_mem _ hm))]

theorem tagStrip_id : ∀ (cs : List Char), brOkB cs = true → tagStrip cs = cs := by
  intro cs
  induction cs using tagStrip.induct with
  | case1 => intro _; exact tagStrip_nil
  | case2 r4 after h ih =>
      intro hok
      rw [tagStrip_lt_gap0 r4 after h]
      rw [ih (brOk_tail '<' r4 hok)]
  | case3 r4 gap after h hg ih =>
      intro hok
      exfalso
      obtain ⟨hr4, hngap⟩ := splitGt_some_eq r4 gap after h
      cases hgap : gap with
      | nil => exact hg hgap
      | cons d g2 =>
          have hd : d ≠ '>' := by
            intro hdx
            exact hngap (hgap ▸ hdx ▸ List.mem_cons_self _ _)
          have hr4c : r4 = d :: (g2 ++ '>' :: after) := by
            rw [hr4, hgap]
            simp
          rw [hr4c, brOkB_lt_ne d _ hd, Bool.not_eq_eq_eq_not, Bool.not_true] at hok
          have := (contains_gt_iff _).mp hok
          exact this (List.mem_cons_of_mem _ (List.mem_append_right _ (List.mem_cons_self _ _)))
  | case4 r4 h ih =>
      intro hok
      rw [tagStrip_lt_none r4 h, tagStrip_no_gt r4 ((splitGt_none_iff r4).mp h)]
  | case5 e r4 hc ih =>
      intro hok
      rw [tagStrip_ne e r4 hc, ih (brOk_tail e r4 hok)]

theorem collapseWs_nil : collapseWs [] = [] := by simp [collapseWs]

theorem collapseWs_ws (c : Char) (rest : List Char) (h : isWs c = true) :
    collapseWs (c :: rest) = ' ' :: collapseWs (rest.dropWhile isWs) := by
  simp [collapseWs, h]

theorem collapseWs_nws (c : Char) (rest : List Char) (h : isWs c = false) :
    collapseWs (c :: rest) = c :: collapseWs rest := by
  simp [collapseWs, h]

theorem brOk_dropWhile (cs : List Char) (h : brOkB cs = true) :
    brOkB (cs.dropWhile isWs) = true := by
  induction cs with
  | nil => simpa using h
  | cons c rest ih =>
    by_cases hw : isWs c
    · rw [List.dropWhile_cons]
      simp only [hw, if_true]
      exact ih (brOk_tail c rest h)
    · rw [List.dropWhile_cons]
      simp only [hw, if_false]
      exact h

theorem brOk_collapseWs : ∀ (cs : List Char), brOkB cs = true →
    brOkB (collapseWs cs) = true := by
  intro cs
  induction cs using collapseWs.induct with
  | case1 =>
      intro _
      rw [collapseWs_nil]
      exact brOkB_nil
  | case2 e r4 hws ih =>
      intro h
      rw [collapseWs_ws e r4 hws, brOkB_cons_ne ' ' _ (by decide)]
      exact ih (brOk_dropWhile r4 (brOk_tail e r4 h))
  | case3 e r4 hnws ih =>
      intro h
      rw [collapseWs_nws e r4 (by simpa using hnws)]
      by_cases he : e = '<'
      · subst he
        cases r4 with
        | nil =>
            rw [collapseWs_nil]
            exact brOkB_lt_nil
        | cons d r2 =>
          by_cases hd : d = '>'
          · subst hd
            rw [brOkB_lt_gt] at h
            rw [show collapseWs ('>' :: r2) = '>' :: collapseWs r2 from
              collapseWs_nws _ _ (by decide), brOkB_lt_gt]
            have h2 := ih (by rw [brOkB_cons_ne '>' r2 (by decide)]; exact h)
            rw [show collapseWs ('>' :: r2) = '>' :: collapseWs r2 from
              collapseWs_nws _ _ (by decide), brOkB_cons_ne '>' _ (by decide)] at h2
            exact h2
          · rw [brOkB_lt_ne d r2 hd, Bool.not_eq_eq_eq_not, Bool.not_true] at h
            have hng : '>' ∉ (d :: r2) := (contains_gt_iff _).mp h
            have hng2 : '>' ∉ collapseWs (d :: r2) := by
              intro hm
              rcases mem_collapseWs _ '>' hm with h1 | h1
              · exact hng h1
              · cases h1
            exact brOk_of_head_no_gt _ hng2
      · rw [brOkB_cons_ne e _ he]
        exact ih (by rwa [brOkB_cons_ne e r4 he] at h)

theorem brOk_trimL (l : List Char) (h : brOkB l = true) : brOkB (trimL l) = true := by
  obtain ⟨t, ht⟩ := trimEndL_append (l.dropWhile isWs)
  unfold trimL
  exact brOk_append_left _ t (by rw [ht]; exact brOk_dropWhile l h)

theorem matchI_mem : ∀ (pat l : List Char), matchI pat l = true →
    ∀ p ∈ pat, ∃ c ∈ l, eqI p c = true := by
  intro pat
  induction pat with
  | nil => intro l _ p hp; cases hp
  | cons q qs ih =>
    intro l h p hp
    cases l with
    | nil => simp [matchI] at h
    | cons c cs =>
      simp only [matchI, Bool.and_eq_true] at h
      rcases List.mem_cons.mp hp with rfl | hp2
      · exact ⟨c, List.mem_cons_self _ _, h.1⟩
      · obtain ⟨c2, hc2, he⟩ := ih cs h.2 p hp2
        exact ⟨c2, List.mem_cons_of_mem _ hc2, he⟩

theorem dropAfterI_mem (pat : List Char) : ∀ (cs r : List Char),
    dropAfterI pat cs = some r → ∀ p ∈ pat, ∃ c ∈ cs, eqI p c = true := by
  intro cs
  induction cs with
  | nil =>
      intro r h p hp
      simp only [dropAfterI] at h
      split at h
      · rename_i hm
        obtain ⟨c, hc, _⟩ := matchI_mem pat [] hm p hp
        cases hc
      · cases h
  | cons c rest ih =>
    intro r h p hp
    simp only [dropAfterI] at h
    split at h
    · rename_i hm
      exact matchI_mem pat (c :: rest) hm p hp
    · obtain ⟨c2, hc2, he⟩ := ih r h p hp
      exact ⟨c2, List.mem_cons_of_mem _ hc2, he⟩

theorem lowerC_eq_lt (c : Char) (h : lowerC c = '<') : c = '<' := by
  unfold lowerC at h
  split at h
  all_goals first
    | exact h
    | exact absurd h (by decide)

theorem lowerC_eq_gt (c : Char) (h : lowerC c = '>') : c = '>' := by
  unfold lowerC at h
  split at h
  all_goals first
    | exact h
    | exact absurd h (by decide)

theorem eqI_lt (c : Char) (h : eqI '<' c = true) : c = '<' := by
  unfold eqI at h
  rw [beq_iff_eq] at h
  exact lowerC_eq_lt c (by rw [← h]; decide)

theorem eqI_gt (c : Char) (h : eqI '>' c = true) : c = '>' := by
  unfold eqI at h
  rw [beq_iff_eq] at h
  exact lowerC_eq_gt c (by rw [← h]; decide)

theorem blockStrip_nil (openT closeT : List Char) (hop : openT ≠ []) :
    blockStrip openT closeT hop [] = [] := by
  rw [blockStrip.eq_def]

theorem blockStrip_none (openT closeT : List Char) (hop : openT ≠ []) (e : Char)
    (r4 : List Char) (hm : matchI openT (e :: r4) = true)
    (hd : dropAfterI closeT ((e :: r4).drop openT.length) = none) :
    blockStrip openT closeT hop (e :: r4) = e :: blockStrip openT closeT hop r4 := by
  rw [blockStrip.eq_def]
  simp only [hm]
  split
  · split
    · rename_i after heq
      rw [hd] at heq
      cases heq
    · rfl
  · rename_i hf
    exact absurd trivial hf

theorem blockStrip_neg (openT closeT : List Char) (hop : openT ≠ []) (e : Char)
    (r4 : List Char) (hm : matchI openT (e :: r4) = false) :
    blockStrip openT closeT hop (e :: r4) = e :: blockStrip openT closeT hop r4 := by
  rw [blockStrip.eq_def]
  simp [hm]

theorem blockStrip_id (openT closeT : List Char) (hop : openT ≠ [])
    (hopen : ∀ c0 c1 l, matchI openT (c0 :: c1 :: l) = true → c0 = '<' ∧ c1 ≠ '>')
    (hlen : 2 ≤ openT.length) (hgt : '>' ∈ closeT) :
    ∀ cs, brOkB cs = true → blockStrip openT closeT hop cs = cs := by
  intro cs
  induction cs using blockStrip.induct openT closeT hop with
  | case1 =>
      intro _
      exact blockStrip_nil openT closeT hop
  | case2 e r4 hm after hd ih =>
      intro h
      exfalso
      have hlc : 2 ≤ (e :: r4).length := le_trans hlen (matchI_length _ _ hm)
      cases r4 with
      | nil => simp at hlc
      | cons c1 r2 =>
        obtain ⟨he, hc1⟩ := hopen e c1 r2 hm
        subst he
        rw [brOkB_lt_ne c1 r2 hc1, Bool.not_eq_eq_eq_not, Bool.not_true] at h
        have hng : '>' ∉ (c1 :: r2) := (contains_gt_iff _).mp h
        obtain ⟨cg, hcg, heg⟩ := dropAfterI_mem closeT _ after hd '>' hgt
        have hcg2 : cg = '>' := eqI_gt cg heg
        subst hcg2
        have h3 : '>' ∈ ('<' :: c1 :: r2) := List.drop_subset _ _ hcg
        rcases List.mem_cons.mp h3 with h4 | h4
        · exact absurd h4 (by decide)
        · exact hng h4
  | case3 e r4 hm hd ih =>
      intro h
      rw [blockStrip_none openT closeT hop e r4 hm hd]
      rw [ih (brOk_tail e r4 h)]
  | case4 e r4 hm ih =>
      intro h
      rw [blockStrip_neg openT closeT hop e r4 (by simpa using hm)]
      rw [ih (brOk_tail e r4 h)]

theorem scriptOpen_head (c0 c1 : Char) (l : List Char)
    (h : matchI scriptOpen (c0 :: c1 :: l) = true) : c0 = '<' ∧ c1 ≠ '>' := by
  rw [show scriptOpen = '<' :: 's' :: ['c', 'r', 'i', 'p', 't'] from rfl] at h
  simp only [matchI, Bool.and_eq_true] at h
  refine ⟨eqI_lt c0 h.1, fun hc1 => ?_⟩
  subst hc1
  exact absurd h.2.1 (by decide)

theorem styleOpen_head (c0 c1 : Char) (l : List Char)
    (h : matchI styleOpen (c0 :: c1 :: l) = true) : c0 = '<' ∧ c1 ≠ '>' := by
  rw [show styleOpen = '<' :: 's' :: ['t', 'y', 'l', 'e'] from rfl] at h
  simp only [matchI, Bool.and_eq_true] at h
  refine ⟨eqI_lt c0 h.1, fun hc1 => ?_⟩
  subst hc1
  exact absurd h.2.1 (by decide)

theorem scriptStrip_id (cs : List Char) (h : brOkB cs = true) :
    blockStrip scriptOpen scriptClose (by decide) cs = cs :=
  blockStrip_id scriptOpen scriptClose (by decide) scriptOpen_head (by decide)
    (by decide) cs h

theorem styleStrip_id (cs : List Char) (h : brOkB cs = true) :
    blockStrip styleOpen styleClose (by decide) cs = cs :=
  blockStrip_id styleOpen styleClose (by decide) styleOpen_head (by decide)
    (by decide) cs h

theorem collapseWs_id : ∀ (cs : List Char),
    (∀ c ∈ cs, isWs c = true → c = ' ') → noDoubleWs cs = true → collapseWs cs = cs := by
  intro cs
  induction cs with
  | nil =>
      intro _ _
      exact collapseWs_nil
  | cons c rest ih =>
    intro hws hnd
    by_cases hw : isWs c = true
    · have hc : c = ' ' := hws c (List.mem_cons_self _ _) hw
      have hdrop : rest.dropWhile isWs = rest := by
        cases rest with
        | nil => rfl
        | cons d ds =>
          have hd : isWs d = false := by
            simp only [noDoubleWs, Bool.and_eq_true] at hnd
            have h1 := hnd.1
            rw [hw] at h1
            simpa using h1
          simp [List.dropWhile_cons, hd]
      rw [collapseWs_ws c rest hw, hdrop, ← hc]
      congr 1
      exact ih (fun x hx => hws x (List.mem_cons_of_mem _ hx)) (noDouble_tail c rest hnd)
    · rw [collapseWs_nws c rest (by simpa using hw)]
      congr 1
      exact ih (fun x hx => hws x (List.mem_cons_of_mem _ hx)) (noDouble_tail c rest hnd)

theorem dropWhile_isWs_idem : ∀ (l : List Char),
    (l.dropWhile isWs).dropWhile isWs = l.dropWhile isWs := by
  intro l
  induction l with
  | nil => rfl
  | cons c rest ih =>
    by_cases hw : isWs c = true
    · simp [List.dropWhile_cons, hw, ih]
    · have hw2 : isWs c = false := by simpa using hw
      simp [List.dropWhile_cons, hw2]

theorem dropWhile_prefix_fix (Z W t : List Char) (hZ : Z.dropWhile isWs = Z)
    (hWt : W ++ t = Z) : W.dropWhile isWs = W := by
  cases W with
  | nil => rfl
  | cons w ws =>
    cases Z with
    | nil => simp at hWt
    | cons z zs =>
      have hwz : w = z := by
        rw [List.cons_append] at hWt
        injection hWt with h1 h2
      have hz : isWs z = false := by
        by_contra hzz
        have hzz2 : isWs z = true := by simpa using hzz
        simp only [List.dropWhile_cons, hzz2, if_true] at hZ
        have hle : (zs.dropWhile isWs).length ≤ zs.length :=
          (List.dropWhile_suffix isWs).length_le
        rw [hZ] at hle
        simp at hle
      subst hwz
      simp [List.dropWhile_cons, hz]

theorem trimL_idem (Y : List Char) : trimL (trimL Y) = trimL Y := by
  have hZidem : (Y.dropWhile isWs).dropWhile isWs = Y.dropWhile isWs :=
    dropWhile_isWs_idem Y
  obtain ⟨t, ht⟩ := trimEndL_append (Y.dropWhile isWs)
  have hfront : (trimL Y).dropWhile isWs = trimL Y :=
    dropWhile_prefix_fix (Y.dropWhile isWs) (trimL Y) t hZidem
      (by unfold trimL; exact ht)
  have hback : trimEndL (trimL Y) = trimL Y := by
    have hrev : (trimL Y).reverse = ((Y.dropWhile isWs).reverse).dropWhile isWs := by
      unfold trimL trimEndL
      rw [List.reverse_reverse]
    unfold trimEndL
    rw [hrev, dropWhile_isWs_idem, ← hrev, List.reverse_reverse]
  show trimEndL ((trimL Y).dropWhile isWs) = trimL Y
  rw [hfront, hback]

theorem stripHtmlL_idem (cs : List Char) : stripHtmlL (stripHtmlL cs) = stripHtmlL cs := by
  have hok : brOkB (stripHtmlL cs) = true := by
    unfold stripHtmlL
    exact brOk_trimL _ (brOk_collapseWs _ (brOk_tagStrip _))
  have hws : ∀ c ∈ stripHtmlL cs, isWs c = true → c = ' ' := by
    unfold stripHtmlL
    exact allWs_trimL _ (allWs_collapseWs _)
  have hnd : noDoubleWs (stripHtmlL cs) = true := by
    unfold stripHtmlL
    exact noDouble_trimL _ (noDouble_collapseWs _)
  show trimL (collapseWs (tagStrip (blockStrip styleOpen styleClose (by decide)
    (blockStrip scriptOpen scriptClose (by decide) (stripHtmlL cs))))) = stripHtmlL cs
  rw [scriptStrip_id _ hok, styleStrip_id _ hok, tagStrip_id _ hok,
    collapseWs_id _ hws hnd]
  exact trimL_idem _

/-- C10: the Text Sanitizer is idempotent — for every input (including the
null/absent value), applying `stripHtml` to its own output yields that output
unchanged. The second run finds no tag, no script/style block, no double
whitespace and no trimmable ends, so every pipeline stage acts as the
identity. -/
theorem stripHtml_idem (m : Option String) :
    stripHtml (some (stripHtml m)) = stripHtml m := by
  cases m with
  | none => rfl
  | some s =>
    by_cases hs : s = ""
    · subst hs
      rfl
    · rw [show stripHtml (some s) = ⟨stripHtmlL s.data⟩ from by simp [stripHtml, hs]]
      by_cases h0 : (⟨stripHtmlL s.data⟩ : String) = ""
      · rw [h0]
        simp [stripHtml]
      · rw [show stripHtml (some ⟨stripHtmlL s.data⟩)
            = ⟨stripHtmlL (⟨stripHtmlL s.data⟩ : String).data⟩ from by
          simp [stripHtml, h0]]
        show (⟨stripHtmlL (stripHtmlL s.data)⟩ : String) = ⟨stripHtmlL s.data⟩
        rw [stripHtmlL_idem]
